import Mathlib

/-
  Verification of the content-migration pipeline (BDO-git/content-migration).

  Strings of the JavaScript source are modelled as `List Char` (ASCII payloads);
  fractional similarity scores are modelled as `ℚ`.  Each definition below is a
  shallow embedding of one function of the source tree, with the source file and
  line range recorded in its doc comment.
-/

/-- JavaScript strings, modelled as lists of characters. -/
abbrev LC := List Char

/-- JS `s.toLowerCase()`, restricted to the ASCII range (identifiers and
property names in the repository are ASCII). -/
def jsLower (s : LC) : LC := s.map Char.toLower

/-- JS `s.replace(/"/g, '')`: remove every double-quote character. -/
def stripQuotes (s : LC) : LC := s.filter (fun c => c ≠ '"')

/-- Node `path.basename(s)` (posix, no extension argument): ignore trailing
slashes, then keep everything after the last remaining slash; a string that is
all slashes (or empty) gives the empty string. -/
def jsBasename (s : LC) : LC :=
  ((s.reverse.dropWhile (fun c => c = '/')).takeWhile (fun c => c ≠ '/')).reverse

/-- Helper for `jsIncludes`: does `hay` start with `needle`? -/
def leadsWith : LC → LC → Bool
  | [], _ => true
  | _ :: _, [] => false
  | a :: as, b :: bs => a = b && leadsWith as bs

/-- JS `hay.includes(needle)`: `needle` occurs contiguously inside `hay`. -/
def jsIncludes : LC → LC → Bool
  | [], needle => leadsWith needle []
  | hay@(_ :: t), needle => leadsWith needle hay || jsIncludes t needle

/-- `AutoMapService.levenshtein` (src/unnamed/part_003, lines 294-320): entry
`matrix[i][j]` of the dynamic-programming matrix, where `i` indexes `b` and `j`
indexes `a`.  `matrix[i][0] = i`, `matrix[0][j] = j`, and the inner-loop
recurrence compares `b.charAt(i-1)` with `a.charAt(j-1)` (here via `getD`,
always in range for the indices the algorithm uses). -/
def levMatrix (a b : LC) : Nat → Nat → Nat
  | 0, j => j
  | i + 1, 0 => i + 1
  | i + 1, j + 1 =>
    if b.getD i ' ' = a.getD j ' ' then levMatrix a b i j
    else
      min (levMatrix a b i j + 1)
        (min (levMatrix a b (i + 1) j + 1) (levMatrix a b i (j + 1) + 1))
  termination_by i j => i + j

/-- `AutoMapService.levenshtein` (src/unnamed/part_003, lines 294-320): early
returns for an empty argument, otherwise the bottom-right matrix entry
`matrix[b.length][a.length]`. -/
def levDistance (a b : LC) : Nat :=
  if a.length = 0 then b.length
  else if b.length = 0 then a.length
  else levMatrix a b b.length a.length

/-- `AutoMapService.calculateScore` (src/unnamed/part_003, lines 269-292):
strip quotes and lower-case both strings, compare basenames: equal → 90, one
contains the other → 70, otherwise the scaled Levenshtein score
`(1 - d/maxLen) * 60` with a `0` guard for `maxLen = 0`. -/
def calculateScore (str1 str2 : LC) : ℚ :=
  let clean1 := jsLower (stripQuotes str1)
  let clean2 := jsLower (stripQuotes str2)
  let base1 := jsBasename clean1
  let base2 := jsBasename clean2
  if base1 = base2 then 90
  else if jsIncludes base2 base1 || jsIncludes base1 base2 then 70
  else
    let distance := levDistance base1 base2
    let maxLen := max base1.length base2.length
    if maxLen = 0 then 0
    else (1 - (distance : ℚ) / (maxLen : ℚ)) * 60

/-- The scoring ladder exactly as the specification words it (claim C2):
normalized-basename equality → 90; containment either way → 70; otherwise the
scaled edit-distance formula, with score 0 when both basenames are empty. -/
def specLadderScore (a b : LC) : ℚ :=
  let base1 := jsBasename (jsLower (stripQuotes a))
  let base2 := jsBasename (jsLower (stripQuotes b))
  if base1 = base2 then 90
  else if jsIncludes base2 base1 || jsIncludes base1 base2 then 70
  else if base1.length = 0 ∧ base2.length = 0 then 0
  else (1 - (levDistance base1 base2 : ℚ) / (max base1.length base2.length : ℚ)) * 60

/-! ### Auto-mapping engine: matching loops (src/unnamed/part_003) -/
/-- One entry of `targetTemplates` in the target-definition file: only the
`targetTemplate` field is read by `matchTemplates`; it may be absent. -/
structure TargetTemplate where
  targetTemplate : Option LC

/-- One entry of `targetComponents`: `targetComponent` path plus an optional
array of declared property names. -/
structure TargetComponent where
  targetComponent : Option LC
  properties : Option (List LC)

/-- A source component parsed out of the analysis CSV
(`AutoMapService.parseAnalysisCSV` pushes `{path, properties}` objects). -/
structure SourceComponent where
  path : LC
  properties : List LC
  deriving DecidableEq

/-- A produced template mapping (`mapping` field of a `matchTemplates` row). -/
structure TemplateMapping where
  sourceTemplate : LC
  targetTemplate : LC
  propertyMappings : List (LC × LC)

/-- A produced component mapping (`mapping` field of a `matchComponents` row). -/
structure ComponentMapping where
  sourceComponent : LC
  targetComponent : LC
  propertyMappings : List (LC × LC)

/-- One row of a matching result list (`results.push({source, target, score, mapping})`). -/
structure MatchRow (M : Type) where
  source : LC
  target : LC
  score : ℚ
  mapping : M

/-- JS truthiness of the optional target-path strings: `undefined` and `''`
are falsy. -/
def truthy : Option LC → Bool
  | none => false
  | some s => !s.isEmpty

/-- `AutoMapService.matchThreshold` (src/unnamed/part_003, line 112). -/
def matchThreshold : ℚ := 60

/-- The `'no match found'` sentinel. -/
def noMatchFound : LC := "no match found".toList

/-- The champion-tracking loop shared by all three matching loops of
`AutoMapService`: keep `(bestMatch, bestScore)` and replace them whenever a
strictly larger score appears (so the first of several tied candidates wins). -/
def bestFold {α : Type} (score : α → ℚ) (l : List α) (init : Option α × ℚ) :
    Option α × ℚ :=
  l.foldl (fun acc x => if score x > acc.2 then (some x, score x) else acc) init

/-- `x` is the first element of `l` attaining the maximal score. -/
def FirstArgmax {α : Type} (score : α → ℚ) (l : List α) (x : α) : Prop :=
  ∃ l₁ l₂, l = l₁ ++ x :: l₂ ∧ (∀ y ∈ l₁, score y < score x) ∧
    ∀ y ∈ l, score y ≤ score x

/-- JS object-key assignment `obj[k] = v` on an association list: overwrite in
place if the key is present, append otherwise. -/
def jsSetV {β : Type} : List (LC × β) → LC → β → List (LC × β)
  | [], k, v => [(k, v)]
  | (k', v') :: rest, k, v =>
    if k' = k then (k, v) :: rest else (k', v') :: jsSetV rest k v

/-- JS object-key read `obj[k]` on an association list. -/
def jsLookup {β : Type} (l : List (LC × β)) (k : LC) : Option β :=
  (l.find? (fun p => p.1 = k)).map Prod.snd

/-- `AutoMapService.matchTemplates` (src/unnamed/part_003, lines 114-152), for
one source template: fold over the declared targets, skipping entries without
a truthy `targetTemplate`; accept the best match only at `matchThreshold`. -/
def tplBest (source : LC) (targetTemplates : List TargetTemplate) : Option LC × ℚ :=
  targetTemplates.foldl
    (fun acc t =>
      if truthy t.targetTemplate then
        let targetPath := t.targetTemplate.getD []
        let score := calculateScore source targetPath
        if score > acc.2 then (some targetPath, score) else acc
      else acc)
    ((none : Option LC), (-1 : ℚ))

def matchTemplateOne (source : LC) (targetTemplates : List TargetTemplate) :
    MatchRow TemplateMapping :=
  let best := tplBest source targetTemplates
  let finalMatch : LC :=
    if best.2 ≥ matchThreshold then best.1.getD [] else noMatchFound
  { source := source
    target := finalMatch
    score := best.2
    mapping :=
      { sourceTemplate := source
        targetTemplate := if finalMatch = noMatchFound then [] else finalMatch
        propertyMappings := [] } }

/-- `AutoMapService.matchTemplates` (src/unnamed/part_003, lines 114-152). -/
def matchTemplates (sourceTemplates : List LC) (targetTemplates : List TargetTemplate) :
    List (MatchRow TemplateMapping) :=
  sourceTemplates.map (fun s => matchTemplateOne s targetTemplates)

/-- The per-pair score computed inside the `matchComponents` target loop
(src/unnamed/part_003, lines 169-186): ladder score, then a +20 bonus when the
lower-cased quote-stripped basenames agree, then +2 per overlapping property
name, capped at +20. -/
def componentPairScore (source : SourceComponent) (target : TargetComponent)
    (targetPath : LC) : ℚ :=
  let score0 := calculateScore source.path targetPath
  let sourceName := stripQuotes (jsLower (jsBasename source.path))
  let targetName := jsLower (jsBasename targetPath)
  let score1 := if sourceName = targetName then score0 + 20 else score0
  match target.properties with
  | some tprops =>
    score1 + ((min ((source.properties.filter (fun p => p ∈ tprops)).length * 2) 20 : ℕ) : ℚ)
  | none => score1

/-- The property ladder computed inside the `matchProperties` target loop
(src/unnamed/part_003, lines 230-252). -/
def propertyPairScore (sourceProp targetProp : LC) : ℚ :=
  if sourceProp = targetProp then 100
  else if jsLower sourceProp = jsLower targetProp then 90
  else if jsIncludes (jsLower sourceProp) (jsLower targetProp) ||
      jsIncludes (jsLower targetProp) (jsLower sourceProp) then 70
  else
    let distance := levDistance (jsLower sourceProp) (jsLower targetProp)
    let maxLen := max sourceProp.length targetProp.length
    (1 - (distance : ℚ) / (maxLen : ℚ)) * 60

/-- `AutoMapService.matchProperties` (src/unnamed/part_003, lines 223-267):
for each source property, track the best-scoring target property and record it
in the mapping object when its score reaches 50. -/
def matchProperties (sourceProps targetProps : List LC) : List (LC × LC) :=
  sourceProps.foldl
    (fun mapping sourceProp =>
      let best := bestFold (propertyPairScore sourceProp) targetProps
        ((none : Option LC), (-1 : ℚ))
      if best.2 ≥ 50 then jsSetV mapping sourceProp (best.1.getD []) else mapping)
    []

/-- `AutoMapService.matchComponents` (src/unnamed/part_003, lines 154-221), for
one source component: fold over declared targets (skipping entries without a
truthy `targetComponent`), tracking `(bestMatch, bestScore, matchedTargetObj)`;
accept at `matchThreshold`, then auto-map properties against the accepted
target's declared property list. -/
def compBest (source : SourceComponent) (targetComponents : List TargetComponent) :
    Option (LC × TargetComponent) × ℚ :=
  targetComponents.foldl
    (fun acc t =>
      if truthy t.targetComponent then
        let targetPath := t.targetComponent.getD []
        let score := componentPairScore source t targetPath
        if score > acc.2 then (some (targetPath, t), score) else acc
      else acc)
    ((none : Option (LC × TargetComponent)), (-1 : ℚ))

def matchComponentOne (source : SourceComponent) (targetComponents : List TargetComponent) :
    MatchRow ComponentMapping :=
  let best := compBest source targetComponents
  let finalMatch : LC :=
    if best.2 ≥ matchThreshold then (best.1.map Prod.fst).getD [] else noMatchFound
  let finalTargetObj : Option TargetComponent :=
    if best.2 ≥ matchThreshold then best.1.map Prod.snd else none
  let propMap : List (LC × LC) :=
    match finalTargetObj with
    | some t =>
      match t.properties with
      | some tprops => matchProperties source.properties tprops
      | none => []
    | none => []
  { source := source.path
    target := finalMatch
    score := best.2
    mapping :=
      { sourceComponent := source.path
        targetComponent := if finalMatch = noMatchFound then [] else finalMatch
        propertyMappings := propMap } }

/-- `AutoMapService.matchComponents` (src/unnamed/part_003, lines 154-221). -/
def matchComponents (sourceComponents : List SourceComponent)
    (targetComponents : List TargetComponent) : List (MatchRow ComponentMapping) :=
  sourceComponents.map (fun s => matchComponentOne s targetComponents)

/-- The declared template targets that the loop actually scores: entries with
a truthy `targetTemplate`, in declaration order. -/
def validTplPaths (ts : List TargetTemplate) : List LC :=
  ts.filterMap (fun t => if truthy t.targetTemplate then some (t.targetTemplate.getD []) else none)

/-- The declared component targets that the loop actually scores, paired with
their declaration objects, in declaration order. -/
def validCompTargets (ts : List TargetComponent) : List (LC × TargetComponent) :=
  ts.filterMap (fun t =>
    if truthy t.targetComponent then some (t.targetComponent.getD [], t) else none)

/-- The component bonus scoring exactly as claim C4 words it: base ladder score
plus +20 for a full-string (not just basename) exact match after normalization
(quote-stripping and lower-casing), plus +2 per property name common to the
source's observed properties and the target's declared properties, capped at
+20. -/
def specC4Score (source : SourceComponent) (target : TargetComponent)
    (targetPath : LC) : ℚ :=
  calculateScore source.path targetPath +
    (if jsLower (stripQuotes source.path) = jsLower (stripQuotes targetPath)
      then 20 else 0) +
    ((min ((source.properties.dedup.filter
        (fun p => p ∈ target.properties.getD [])).length * 2) 20 : ℕ) : ℚ)

/-- The concrete source component used to separate C4's claim from the code. -/
def srcFooA : SourceComponent := ⟨"/apps/a/foo".toList, []⟩

/-- The concrete target component used to separate C4's claim from the code. -/
def tgtFooB : TargetComponent := ⟨some "/apps/b/foo".toList, some []⟩

/-- The property ladder exactly as claim C5 words it: exact match 100,
case-insensitive exact 90, substring containment either direction 70,
otherwise the scaled edit distance capped at 60. -/
def specPropertyLadder (sp tp : LC) : ℚ :=
  if sp = tp then 100
  else if jsLower sp = jsLower tp then 90
  else if jsIncludes (jsLower sp) (jsLower tp) ||
      jsIncludes (jsLower tp) (jsLower sp) then 70
  else
    min ((1 - (levDistance (jsLower sp) (jsLower tp) : ℚ) /
      ((max sp.length tp.length : ℕ) : ℚ)) * 60) 60

/-! ### Migration executor: node transformation (src/server/services/migrationService.js) -/
mutual
/-- A JS value inside a parsed `.content.xml` node object (xml2js with
`explicitArray: false, mergeAttrs: true`): a scalar string, an array of
strings, or a nested child object. -/
inductive JSVal where
  | str : LC → JSVal
  | arr : List LC → JSVal
  | obj : JSObj → JSVal

/-- A JS object: an ordered association of keys to values. -/
inductive JSObj where
  | nil : JSObj
  | cons : LC → JSVal → JSObj → JSObj
end

/-- Scalar or array, i.e. not a nested object (those take the recursion
branch of `transformNode`). -/
def isFlat : JSVal → Bool
  | .obj _ => false
  | _ => true

/-- JS object read `obj[k]` (keys are unique in parsed objects, so first match). -/
def objLookup : JSObj → LC → Option JSVal
  | .nil, _ => none
  | .cons k v rest, key => if k = key then some v else objLookup rest key

/-- JS object write `obj[k] = v`: overwrite in place or append. -/
def objSet : JSObj → LC → JSVal → JSObj
  | .nil, k, v => .cons k v .nil
  | .cons k' v' rest, k, v =>
    if k' = k then .cons k v rest else .cons k' v' (objSet rest k v)

/-- Build a `JSObj` from an entry list. -/
def objOfList : List (LC × JSVal) → JSObj
  | [] => .nil
  | (k, v) :: rest => .cons k v (objOfList rest)

/-- One parsed mapping-report row payload: target path plus property map
(`MigrationService.parseMappingReport`, src/server/services/migrationService.js
lines 45-92). -/
structure MapData where
  targetPath : LC
  properties : List (LC × LC)

/-- The template and component maps loaded from the mapping report. -/
structure Mappings where
  templates : List (LC × MapData)
  components : List (LC × MapData)

def rtKey : LC := "sling:resourceType".toList

def cqTplKey : LC := "cq:template".toList

/-- JS `mapData.properties[key]` under the `if (mapData.properties[key])`
truthiness guard: a missing key or an empty-string target is falsy. -/
def propMapGet (props : List (LC × LC)) (k : LC) : Option LC :=
  match jsLookup props k with
  | some t => if t.isEmpty then none else some t
  | none => none

/-- The component-driven property rename of `transformNode` (lines 205-213):
read the node's original `sling:resourceType`, and when it is a truthy string
with a component mapping whose property map names `k`, return the new key. -/
def compPropTarget (orig : JSObj) (m : Mappings) (k : LC) : Option LC :=
  match objLookup orig rtKey with
  | some (.str s) =>
    if s.isEmpty then none
    else
      match jsLookup m.components s with
      | some md => propMapGet md.properties k
      | none => none
  | _ => none

/-- The template-driven property rename of `transformNode` (lines 215-223),
tried only when the component rename did not fire. -/
def tplPropTarget (orig : JSObj) (m : Mappings) (k : LC) : Option LC :=
  match objLookup orig cqTplKey with
  | some (.str s) =>
    if s.isEmpty then none
    else
      match jsLookup m.templates s with
      | some md => propMapGet md.properties k
      | none => none
  | _ => none

/-- The key rewriting of one `transformNode` entry: component property map
first, then template property map, else the key unchanged. -/
def transformKey (orig : JSObj) (m : Mappings) (k : LC) : LC :=
  match compPropTarget orig m k with
  | some t => t
  | none =>
    match tplPropTarget orig m k with
    | some t => t
    | none => k

/-- The value rewriting of one `transformNode` entry (lines 183-200): a
`sling:resourceType` value with a component mapping is overwritten by the
mapped target path; a `cq:template` value with a template mapping likewise. -/
def transformValue (m : Mappings) (k : LC) (v : JSVal) : JSVal :=
  let v1 :=
    if k = rtKey then
      match v with
      | .str s =>
        match jsLookup m.components s with
        | some md => JSVal.str md.targetPath
        | none => v
      | _ => v
    else v
  if k = cqTplKey then
    match v with
    | .str s =>
      match jsLookup m.templates s with
      | some md => JSVal.str md.targetPath
      | none => v1
    | _ => v1
  else v1

/-- The `for (const [key, value] of Object.entries(node))` loop of
`MigrationService.transformNode` (src/server/services/migrationService.js,
lines 165-229), with `orig` the whole node (used for the `sling:resourceType`
and `cq:template` reads) and `acc` the `newNode` accumulator; a nested object
value restarts the loop on the child (the recursive `transformNode` call). -/
def transformEntries (orig : JSObj) (m : Mappings) : JSObj → JSObj → JSObj
  | .nil, acc => acc
  | .cons k v rest, acc =>
    match v with
    | .obj child =>
      transformEntries orig m rest
        (objSet acc k (JSVal.obj (transformEntries child m child JSObj.nil)))
    | .str s =>
      transformEntries orig m rest
        (objSet acc (transformKey orig m k) (transformValue m k (.str s)))
    | .arr a =>
      transformEntries orig m rest
        (objSet acc (transformKey orig m k) (transformValue m k (.arr a)))
  termination_by l => sizeOf l

/-- `MigrationService.transformNode` (src/server/services/migrationService.js,
lines 165-229): walk the entries of `node` building `newNode`; nested objects
are transformed recursively under their original key; flat entries are stored
under the (possibly renamed) key with the (possibly rewritten) value. -/
def transformNode (node : JSObj) (m : Mappings) : JSObj :=
  transformEntries node m node JSObj.nil

/-- The concrete mapping set used for C8: component `legacy/comp` maps to
`new/comp` with the property pair `title → headline`. -/
def c8maps : Mappings :=
  { templates := []
    components :=
      [("legacy/comp".toList,
        { targetPath := "new/comp".toList
          properties := [("title".toList, "headline".toList)] })] }

/-- The concrete node used for C8: a component instance with one mapped
property. -/
def c8node : JSObj :=
  .cons rtKey (.str "legacy/comp".toList)
    (.cons "title".toList (.str "v".toList) .nil)

/-! ### Migration executor: traversal and report (src/server/services/migrationService.js) -/
/-- What parsing one `.content.xml` yields: `parseStringPromise` either throws
(with a message, caught by `processNode`) or produces a document whose
`jcr:root` key may be absent. -/
inductive ParseOutcome where
  | fail : LC → ParseOutcome
  | ok : Option JSObj → ParseOutcome

mutual
/-- A directory of the extracted package: an optional `.content.xml` (with its
parse outcome) plus named subdirectories.  Plain files other than
`.content.xml` are ignored by `traverseAndMigrate` (its `stats.isDirectory()`
guard) and are not modelled. -/
inductive FsDir where
  | mk : Option ParseOutcome → FsEntries → FsDir

/-- The ordered directory listing used by the traversal. -/
inductive FsEntries where
  | nil : FsEntries
  | cons : LC → FsDir → FsEntries → FsEntries
end

/-- The migration `targetConfig` fields read by `processNode`/`createNode`. -/
structure MigConfig where
  targetUrl : LC
  targetRoot : Option LC
  sourceRoot : Option LC

/-- The accumulated `results` record of `MigrationService.migrate`
(lines 29-33): errors are `{path, error}` pairs. -/
structure MigResults where
  processed : Nat
  created : Nat
  errors : List (LC × LC)

/-- The path-rebasing logic of `processNode` (lines 123-143): when both roots
are truthy and the relative path starts with `sourceRoot`, replace that
leading occurrence with `targetRoot`; otherwise leave the path unchanged. -/
def rebasePath (cfg : MigConfig) (relPath : LC) : LC :=
  if truthy cfg.targetRoot && truthy cfg.sourceRoot then
    if leadsWith (cfg.sourceRoot.getD []) relPath then
      cfg.targetRoot.getD [] ++ relPath.drop (cfg.sourceRoot.getD []).length
    else relPath
  else relPath

/-- `MigrationService.processNode` (lines 112-163) for the node at `relPath`
(the node's filesystem path with the extraction root already stripped, which
is what `nodePath.replace(rootPath, '')` computes for paths under the root).
The state is the results record plus the log of issued writes `(url, outcome)`.
A parse failure is caught and appended to `errors` (before `processed` was
incremented); a missing `jcr:root` returns after counting `processed`;
otherwise the node is transformed and POSTed — `createNode` catches any HTTP
failure itself and returns `false`, which `processNode` ignores, so `created`
is incremented unconditionally after the write. -/
def processNode (cfg : MigConfig) (m : Mappings) (writeOk : LC → Bool)
    (relPath : LC) (outcome : ParseOutcome)
    (st : MigResults × List (LC × Bool)) : MigResults × List (LC × Bool) :=
  match outcome with
  | .fail msg =>
    ({ st.1 with errors := st.1.errors ++ [(relPath ++ "/.content.xml".toList, msg)] },
     st.2)
  | .ok rootOpt =>
    let finalTargetPath := rebasePath cfg relPath
    let r1 : MigResults := { st.1 with processed := st.1.processed + 1 }
    match rootOpt with
    | none => (r1, st.2)
    | some rootNode =>
      let transformed := transformNode rootNode m
      let url := cfg.targetUrl ++ finalTargetPath
      let ok := writeOk url
      let _ := transformed
      let _ := ok
      ({ r1 with created := r1.created + 1 }, st.2 ++ [(url, ok)])

mutual
/-- `MigrationService.traverseAndMigrate` (lines 94-110): process the current
directory when it holds a `.content.xml`, then recurse into every subdirectory
except `META-INF` (and the `.content.xml` entry itself), in listing order. -/
def traverseDir (cfg : MigConfig) (m : Mappings) (writeOk : LC → Bool) :
    FsDir → LC → MigResults × List (LC × Bool) → MigResults × List (LC × Bool)
  | .mk contentXml children, relPath, st =>
    let st1 := match contentXml with
      | some outcome => processNode cfg m writeOk relPath outcome st
      | none => st
    traverseEntries cfg m writeOk children relPath st1
  termination_by d => sizeOf d

/-- The subdirectory loop of `traverseAndMigrate`. -/
def traverseEntries (cfg : MigConfig) (m : Mappings) (writeOk : LC → Bool) :
    FsEntries → LC → MigResults × List (LC × Bool) → MigResults × List (LC × Bool)
  | .nil, _, st => st
  | .cons nm d rest, relPath, st =>
    let st1 := if nm = "META-INF".toList then st
      else traverseDir cfg m writeOk d (relPath ++ "/".toList ++ nm) st
    traverseEntries cfg m writeOk rest relPath st1
  termination_by l => sizeOf l
end

/-- `MigrationService.migrate` (lines 13-43): start the traversal at the
extraction root (relative path empty) with zeroed counters. -/
def migrateRun (cfg : MigConfig) (m : Mappings) (writeOk : LC → Bool)
    (root : FsDir) : MigResults × List (LC × Bool) :=
  traverseDir cfg m writeOk root []
    ({ processed := 0, created := 0, errors := [] }, [])

/-- The config used in the C1 evaluation: no rebasing roots. -/
def c1cfg : MigConfig := { targetUrl := "http://aem".toList, targetRoot := none, sourceRoot := none }

/-- Empty mapping set for the C1 evaluation. -/
def c1maps : Mappings := { templates := [], components := [] }

/-- A package with one page node whose descriptor parses fine. -/
def c1rootWrite : FsDir :=
  .mk none (.cons "page".toList
    (.mk (some (.ok (some (.cons "jcr:primaryType".toList
      (.str "cq:Page".toList) .nil)))) .nil) .nil)

/-- A package with one page node whose descriptor is malformed. -/
def c1rootParse : FsDir :=
  .mk none (.cons "page".toList
    (.mk (some (.fail "Unexpected end of XML".toList)) .nil) .nil)

/-! ### Tree builder (TreeService, src/unnamed/part_002) -/
mutual
/-- A descriptor document element: tag name, attributes, child elements
(the sax event stream of a well-formed document, in tree form). -/
inductive XmlTree where
  | mk : LC → List (LC × LC) → XmlForest → XmlTree

/-- Ordered child elements of a descriptor element. -/
inductive XmlForest where
  | nil : XmlForest
  | cons : XmlTree → XmlForest → XmlForest
end

mutual
/-- A node of the content tree built by `TreeService` (`buildTree`,
src/unnamed/part_002 lines 8-19): `path` is `Option` because nodes created by
the descriptor parser carry no `path` field at all until (and unless) the
traversal assigns one. -/
inductive TNode where
  | mk : Option LC → LC → LC → List (LC × LC) → TForest → TNode

/-- Ordered children of a tree node. -/
inductive TForest where
  | nil : TForest
  | cons : TNode → TForest → TForest
end

def TNode.path : TNode → Option LC
  | .mk p _ _ _ _ => p

def TNode.name : TNode → LC
  | .mk _ nm _ _ _ => nm

def TNode.primaryType : TNode → LC
  | .mk _ _ pt _ _ => pt

def TNode.properties : TNode → List (LC × LC)
  | .mk _ _ _ props _ => props

def TNode.children : TNode → TForest
  | .mk _ _ _ _ cs => cs

def tfToList : TForest → List TNode
  | .nil => []
  | .cons t rest => t :: tfToList rest

def tfAppend : TForest → TForest → TForest
  | .nil, g => g
  | .cons t rest, g => .cons t (tfAppend rest g)

/-- JS `Object.assign(base, upd)`: apply every binding of `upd` onto `base`. -/
def jsAssign (base upd : List (LC × LC)) : List (LC × LC) :=
  upd.foldl (fun b p => jsSetV b p.1 p.2) base

mutual
/-- `TreeService.parseContentXmlDeep` (src/unnamed/part_002, lines 86-125),
which runs a sax stack machine over the descriptor's event stream: on
element-open build a node from the element's attributes (no `path` is ever
assigned), attach it to the node on top of the stack and push it; on
element-close pop.  On a well-formed single-root document the machine
computes exactly this recursion over the element tree. -/
def xmlToNode : XmlTree → TNode
  | .mk nm attrs children =>
    .mk none nm
      (match jsLookup attrs "jcr:primaryType".toList with
        | some t => if t.isEmpty then "nt:unstructured".toList else t
        | none => "nt:unstructured".toList)
      attrs (xmlForestToNodes children)

/-- The machine's handling of a run of sibling elements. -/
def xmlForestToNodes : XmlForest → TForest
  | .nil => .nil
  | .cons t rest => .cons (xmlToNode t) (xmlForestToNodes rest)
end

/-- The path concatenation used by `TreeService.traverse` (lines 40 and 78):
`jcrPath === '/' ? '/' + name : jcrPath + '/' + name`. -/
def jcrJoin (p n : LC) : LC :=
  if p = "/".toList then "/".toList ++ n else p ++ "/".toList ++ n

/-- The inline-children step of `TreeService.traverse` (lines 75-81): assign
each top-level descriptor child its tree path; deeper descendants are left
untouched. -/
def setInlinePaths (jcrPath : LC) : TForest → TForest
  | .nil => .nil
  | .cons (.mk _ nm pt props cs) rest =>
    .cons (.mk (some (jcrJoin jcrPath nm)) nm pt props cs)
      (setInlinePaths jcrPath rest)

mutual
/-- A directory of the extracted package as `TreeService.traverse` sees it:
an optional `.content.xml` descriptor plus named subdirectories (non-descriptor
plain files are not modelled: the traversal ignores them). -/
inductive PkgDir where
  | mk : Option XmlTree → PkgForest → PkgDir

/-- The ordered subdirectory listing. -/
inductive PkgForest where
  | nil : PkgForest
  | cons : LC → PkgDir → PkgForest → PkgForest
end

mutual
/-- `TreeService.traverse` (src/unnamed/part_002, lines 21-83): merge the
descriptor's root attributes into the directory node, recurse into every
subdirectory except `META-INF` (building a fresh `nt:folder` node whose path
is `jcrJoin jcrPath name`), then append the descriptor's top-level inline
children with their paths assigned. -/
def treeTraverse : PkgDir → TNode → LC → TNode
  | .mk contentXml subdirs, node, jcrPath =>
    let node1 : TNode := match contentXml with
      | some x =>
        let nd := xmlToNode x
        .mk node.path node.name
          (if nd.primaryType.isEmpty then node.primaryType else nd.primaryType)
          (jsAssign node.properties nd.properties) node.children
      | none => node
    let dirChildren := treeTraverseForest subdirs jcrPath
    let inline : TForest := match contentXml with
      | some x => setInlinePaths jcrPath ((xmlToNode x).children)
      | none => .nil
    .mk node1.path node1.name node1.primaryType node1.properties
      (tfAppend node1.children (tfAppend dirChildren inline))

/-- The subdirectory loop of `TreeService.traverse` (lines 34-62). -/
def treeTraverseForest : PkgForest → LC → TForest
  | .nil, _ => .nil
  | .cons nm d rest, jcrPath =>
    if nm = "META-INF".toList then treeTraverseForest rest jcrPath
    else
      let nodePath := jcrJoin jcrPath nm
      let childNode : TNode := .mk (some nodePath) nm "nt:folder".toList [] .nil
      .cons (treeTraverse d childNode nodePath) (treeTraverseForest rest jcrPath)
end

/-- `TreeService.buildTree` (src/unnamed/part_002, lines 8-19). -/
def buildTree (d : PkgDir) : TNode :=
  treeTraverse d (.mk (some "/".toList) "jcr_root".toList "nt:folder".toList [] .nil)
    "/".toList

/-- Every node of this subtree (itself included) carries no `path`. -/
inductive AllPathless : TNode → Prop
  | mk (n : TNode) : n.path = none →
      (∀ c ∈ tfToList n.children, AllPathless c) → AllPathless n

/-- The path discipline that `buildTree` actually guarantees: a child either
carries `jcrJoin`-of-parent path or belongs to an entirely path-less subtree
(an inline descriptor node below the top level); a path-less parent only has
path-less children. -/
inductive PathInv : TNode → Prop
  | mk (n : TNode) :
      (∀ c ∈ tfToList n.children, c.path = none → AllPathless c) →
      (∀ c ∈ tfToList n.children, ∀ p, n.path = some p →
        c.path = none ∨ c.path = some (jcrJoin p c.name)) →
      (∀ c ∈ tfToList n.children, n.path = none → c.path = none) →
      (∀ c ∈ tfToList n.children, PathInv c) →
      PathInv n

/-- The concrete package used against C9's literal claim: one subdirectory `a`
and a descriptor declaring an inline child `inline1` that itself holds a
nested inline child `deep`. -/
def c9dir : PkgDir :=
  .mk (some (.mk "jcr:root".toList []
        (.cons (.mk "inline1".toList [] (.cons (.mk "deep".toList [] .nil) .nil)) .nil)))
    (.cons "a".toList (.mk none .nil) .nil)

/-! ### Migration executor over a transformed tree (spec-modelled) -/
mutual
/-- Modelled from the spec: the tree-based Migration Executor
(`migrate(tree, dryRun)` of the `MigrationService` instantiated per request in
the routes file src/unnamed/part_001 line 150-151; that service file is not
under src/).  Per the spec (§4.5): pre-order traversal; for each visited node
increment `processed`; in dry-run mode synthesize success (increment `created`)
without issuing any write; otherwise issue exactly one write (logged here by
node path) and on success increment `created`, on failure append a
`{path, message}` error, continuing into children either way. -/
def migrateTreeNode (dryRun : Bool) (oracle : LC → Bool) :
    TNode → MigResults × List LC → MigResults × List LC
  | .mk pth _ _ _ cs, st =>
    let p := pth.getD []
    let r1 : MigResults := { st.1 with processed := st.1.processed + 1 }
    let st1 : MigResults × List LC :=
      if dryRun then ({ r1 with created := r1.created + 1 }, st.2)
      else if oracle p then ({ r1 with created := r1.created + 1 }, st.2 ++ [p])
      else ({ r1 with errors := r1.errors ++ [(p, "write rejected".toList)] },
        st.2 ++ [p])
    migrateTreeForest dryRun oracle cs st1

/-- Modelled from the spec: the executor's visit of a run of siblings, in
order. -/
def migrateTreeForest (dryRun : Bool) (oracle : LC → Bool) :
    TForest → MigResults × List LC → MigResults × List LC
  | .nil, st => st
  | .cons c rest, st =>
    migrateTreeForest dryRun oracle rest (migrateTreeNode dryRun oracle c st)
end

/-- Modelled from the spec: `migrate(tree, dryRun)` — the root node itself
(path `/`) is never written, only its descendants are visited. -/
def migrateTree (tree : TNode) (dryRun : Bool) (oracle : LC → Bool) :
    MigResults × List LC :=
  migrateTreeForest dryRun oracle tree.children
    ({ processed := 0, created := 0, errors := [] }, [])

mutual
/-- The number of nodes of a subtree. -/
def nodeCount : TNode → Nat
  | .mk _ _ _ _ cs => 1 + forestCount cs

/-- The number of nodes of a forest. -/
def forestCount : TForest → Nat
  | .nil => 0
  | .cons c rest => nodeCount c + forestCount rest
end

/-- The 3-node tree of C6's scenario: a root (path `/`) with two page
children. -/
def c6tree : TNode :=
  .mk (some "/".toList) "jcr_root".toList "nt:folder".toList []
    (.cons (.mk (some "/a".toList) "a".toList "cq:Page".toList [] .nil)
      (.cons (.mk (some "/b".toList) "b".toList "cq:Page".toList [] .nil) .nil))

/-! ### Analysis CSV export (analysisService.js) and re-parse (part_003) -/
/-- JS whitespace for `trim` and `\s` (ASCII range). -/
def isWsChar (c : Char) : Bool :=
  c = ' ' || c = '\t' || c = '\n' || c = '\r' || c = '\x0b' || c = '\x0c'

/-- JS `s.trim()`. -/
def jsTrim (s : LC) : LC :=
  ((s.dropWhile isWsChar).reverse.dropWhile isWsChar).reverse

/-- Index of the first occurrence of `c`, if any. -/
def idxFrom : LC → Char → Option Nat
  | [], _ => none
  | a :: l, c => if a = c then some 0 else (idxFrom l c).map (· + 1)

/-- JS `s.indexOf(c)`. -/
def jsIndexOf (s : LC) (c : Char) : Int :=
  match idxFrom s c with
  | some i => i
  | none => -1

/-- JS `s.indexOf(c, start)`. -/
def jsIndexOfFrom (s : LC) (c : Char) (start : Int) : Int :=
  let st : Nat := if start < 0 then 0 else start.toNat
  match idxFrom (s.drop st) c with
  | some i => (st + i : Nat)
  | none => -1

/-- JS `s.lastIndexOf(c, start)`: search backwards from `start` (clamped into
the string; a negative `start` still inspects index 0). -/
def jsLastIndexOf (s : LC) (c : Char) (start : Int) : Int :=
  let bound : Nat := if start < 0 then 0 else min start.toNat (s.length - 1)
  match idxFrom ((s.take (bound + 1)).reverse) c with
  | some i => (bound : Int) - i
  | none => -1

/-- JS `s.substring(a, b)`: clamp both indices into the string and slice
between the smaller and the larger. -/
def jsSubstring (s : LC) (a b : Int) : LC :=
  let x := if a < 0 then 0 else min a.toNat s.length
  let y := if b < 0 then 0 else min b.toNat s.length
  (s.take (max x y)).drop (min x y)

/-- JS `s.split(c)` for a single-character separator. -/
def jsSplitChar (c : Char) : LC → List LC
  | [] => [[]]
  | a :: rest =>
    if a = c then [] :: jsSplitChar c rest
    else
      match jsSplitChar c rest with
      | [] => [[a]]
      | g :: gs => (a :: g) :: gs

/-- JS `arr.join(sep)`. -/
def joinSep (sep : LC) : List LC → LC
  | [] => []
  | [x] => x
  | x :: xs => x ++ sep ++ joinSep sep xs

/-- One digit character (`d` is always below 10 at use sites). -/
def digitChar : Nat → Char
  | 0 => '0' | 1 => '1' | 2 => '2' | 3 => '3' | 4 => '4'
  | 5 => '5' | 6 => '6' | 7 => '7' | 8 => '8' | 9 => '9'
  | _ => '0'

/-- Decimal rendering of a non-negative integer, as JS template literals
render `${comp.count}` (least significant digit extracted first; the fuel
argument bounds the recursion and always suffices). -/
def natToCharsAux : Nat → Nat → LC → LC
  | 0, _, acc => acc
  | fuel + 1, n, acc =>
    let acc' := digitChar (n % 10) :: acc
    if n < 10 then acc' else natToCharsAux fuel (n / 10) acc'

/-- Decimal rendering of a `Nat`. -/
def natToChars (n : Nat) : LC := natToCharsAux (n + 1) n []

/-- One component of an `AnalysisReport` as `AnalysisService.formatReport`
emits it: resource type, usage count, sorted property names. -/
structure AnalysisComponent where
  resourceType : LC
  count : Nat
  properties : List LC
  deriving DecidableEq

/-- The formatted analysis report (`AnalysisService.analyze`/`formatReport`,
src/server/services/analysisService.js lines 12-89). -/
structure AnalysisReport where
  templates : List LC
  components : List AnalysisComponent
  deriving DecidableEq

/-- A `Template` row of the CSV export: `Template,"<t>",,`. -/
def templateRow (t : LC) : LC :=
  "Template,".toList ++ '"' :: (t ++ '"' :: ",,".toList)

/-- A `Component` row of the CSV export:
`Component,"<rt>",<count>,"<props joined by '; '>"`. -/
def componentRow (c : AnalysisComponent) : LC :=
  "Component,".toList ++ '"' :: (c.resourceType ++ '"' :: ',' ::
    (natToChars c.count ++ ',' :: '"' :: (joinSep "; ".toList c.properties ++ ['"'])))

/-- `AnalysisService.generateCSVReport` (src/server/services/analysisService.js,
lines 131-155): header line, one row per template, one row per component, each
row terminated by a newline. -/
def generateCSVReport (r : AnalysisReport) : LC :=
  "Category,Item,UsageCount,Properties".toList ++ '\n' ::
    (((r.templates.map (fun t => templateRow t ++ ['\n'])) ++
      (r.components.map (fun c => componentRow c ++ ['\n']))).flatten)

/-- The lookahead `(?=\s*,|\s*$)` of the row-token regex in
`AutoMapService.parseAnalysisCSV` (src/unnamed/part_003 line 48). -/
def wsLookahead : LC → Bool
  | [] => true
  | c :: rest => if c = ',' then true else if isWsChar c then wsLookahead rest else false

/-- A match of the quoted alternative `".*?"` starting right after an opening
quote, with the lookahead after the closing quote (backtracking explores every
closing quote; `.` crosses neither `\n` nor `\r`). -/
def quotedTokenAt : LC → Bool
  | [] => false
  | c :: rest =>
    if c = '"' then wsLookahead rest || quotedTokenAt rest
    else if c = '\n' || c = '\r' then false
    else quotedTokenAt rest

/-- A match of the bare alternative `[^",\s]+` starting here, with the
lookahead after some non-empty run. -/
def bareTokenAt : LC → Bool
  | [] => false
  | c :: rest =>
    if c = '"' || c = ',' || isWsChar c then false
    else wsLookahead rest || bareTokenAt rest

/-- A token match starting exactly here. -/
def tokenAt (s : LC) : Bool :=
  (match s with
    | '"' :: rest => quotedTokenAt rest
    | _ => false) || bareTokenAt s

/-- `line.match(/(".*?"|[^",\s]+)(?=\s*,|\s*$)/g) !== null`: some position of
the line starts a token. -/
def hasTokenMatch : LC → Bool
  | [] => false
  | s@(_ :: rest) => tokenAt s || hasTokenMatch rest

/-- The `Component` branch of the parse loop (src/unnamed/part_003, lines
77-92): pull the quoted properties payload out of the remainder via the last
two quote positions, split on `;` and trim each piece. -/
def compProps (remainder : LC) : List LC :=
  let lastQuoteEnd := jsLastIndexOf remainder '"' (remainder.length - 1)
  let lastQuoteStart := jsLastIndexOf remainder '"' (lastQuoteEnd - 1)
  if lastQuoteStart > -1 then
    (jsSplitChar ';'
      (jsSubstring remainder (lastQuoteStart + 1) lastQuoteEnd)).map jsTrim
  else []

/-- One iteration of the `AutoMapService.parseAnalysisCSV` line loop
(src/unnamed/part_003, lines 44-99), faithful to its index arithmetic. -/
def parseAnalysisLine (line0 : LC) (acc : List LC × List SourceComponent) :
    List LC × List SourceComponent :=
  let line := jsTrim line0
  if line.isEmpty then acc
  else if ¬ hasTokenMatch line then acc
  else
    let firstComma := jsIndexOf line ','
    if firstComma = -1 then acc
    else
      let category := jsSubstring line 0 firstComma
      let afterCategory := jsSubstring line (firstComma + 1) line.length
      let itemRem : LC × LC :=
        if leadsWith ['"'] (jsTrim afterCategory) then
          let openQuote := jsIndexOf afterCategory '"'
          let closeQuote := jsIndexOfFrom afterCategory '"' (openQuote + 1)
          if closeQuote > -1 then
            (jsSubstring afterCategory (openQuote + 1) closeQuote,
             jsSubstring afterCategory (closeQuote + 1) afterCategory.length)
          else ([], [])
        else
          let nextComma := jsIndexOf afterCategory ','
          if nextComma > -1 then
            (jsSubstring afterCategory 0 nextComma,
             jsSubstring afterCategory nextComma afterCategory.length)
          else (afterCategory, [])
      let item := itemRem.1
      let remainder := itemRem.2
      if category = "Template".toList then (acc.1 ++ [item], acc.2)
      else if category = "Component".toList then
        (acc.1, acc.2 ++ [⟨item, compProps remainder⟩])
      else acc

/-- `AutoMapService.parseAnalysisCSV` (src/unnamed/part_003, lines 37-102):
split on newlines, skip the header, process every line.  Note the returned
components carry only `path` and `properties` — the `UsageCount` column is
never read. -/
def parseAnalysisCSV (content : LC) : List LC × List SourceComponent :=
  ((jsSplitChar '\n' content).drop 1).foldl (fun acc line => parseAnalysisLine line acc)
    ([], [])

theorem levMatrix_comm (a b : LC) : (i : Nat) → (j : Nat) →
    levMatrix a b i j = levMatrix b a j i
  | 0, 0 => by simp [levMatrix]
  | 0, _ + 1 => by simp [levMatrix]
  | _ + 1, 0 => by simp [levMatrix]
  | i + 1, j + 1 => by
    have h1 := levMatrix_comm a b i j
    have h2 := levMatrix_comm a b (i + 1) j
    have h3 := levMatrix_comm a b i (j + 1)
    simp only [levMatrix]
    by_cases hc : b.getD i ' ' = a.getD j ' '
    · simp only [if_pos hc, if_pos hc.symm, h1]
    · have hc' : ¬ a.getD j ' ' = b.getD i ' ' := fun h => hc h.symm
      simp only [if_neg hc, if_neg hc', h1, h2, h3]
      rw [Nat.min_comm (levMatrix b a j (i + 1) + 1) (levMatrix b a (j + 1) i + 1)]
  termination_by i j => i + j

theorem levenshtein_comm (a b : LC) : levDistance a b = levDistance b a := by
  unfold levDistance
  by_cases ha : a.length = 0
  · by_cases hb : b.length = 0
    · simp [ha, hb]
    · simp [ha, hb]
  · by_cases hb : b.length = 0
    · simp [ha, hb]
    · simp only [if_neg ha, if_neg hb]
      exact levMatrix_comm a b b.length a.length

/-- C10: the similarity function `calculateScore` is commutative: all four
ingredients of the ladder (basename equality, mutual containment, the
Levenshtein distance and the max of the lengths) are symmetric. -/
theorem c10_calculateScore_comm (a b : LC) : calculateScore a b = calculateScore b a := by
  simp only [calculateScore]
  generalize jsBasename (jsLower (stripQuotes a)) = x
  generalize jsBasename (jsLower (stripQuotes b)) = y
  by_cases heq : x = y
  · simp [heq]
  · have heq' : ¬ y = x := fun h => heq h.symm
    simp only [if_neg heq, if_neg heq']
    by_cases hinc : jsIncludes y x || jsIncludes x y
    · have hinc' : (jsIncludes x y || jsIncludes y x) = true := by
        rw [Bool.or_comm]; exact hinc
      simp [hinc, hinc']
    · have hinc' : ¬ (jsIncludes x y || jsIncludes y x) = true := by
        rw [Bool.or_comm]; exact hinc
      simp only [hinc, hinc', if_false, Bool.false_eq_true]
      rw [levenshtein_comm, Nat.max_comm]

/-- C2: `calculateScore` agrees pointwise with the specification's ladder
(exact basename match → 90, containment → 70, otherwise the scaled
edit-distance formula, the both-empty case being listed with score 0 inside the
fallback branch — unreachable there, since two empty basenames are equal and
already score 90); and the self-score of any string with a non-empty normalized
form is exactly 90. -/
theorem c2_score_ladder :
    (∀ a b : LC, calculateScore a b = specLadderScore a b) ∧
    (∀ a : LC, jsLower (stripQuotes a) ≠ [] → calculateScore a a = 90) := by
  constructor
  · intro a b
    simp only [calculateScore, specLadderScore]
    generalize jsBasename (jsLower (stripQuotes a)) = x
    generalize jsBasename (jsLower (stripQuotes b)) = y
    by_cases heq : x = y
    · simp [heq]
    · simp only [if_neg heq]
      by_cases hinc : jsIncludes y x || jsIncludes x y
      · simp [hinc]
      · simp only [hinc, if_false, Bool.false_eq_true]
        by_cases hz : max x.length y.length = 0
        · exfalso
          have h1 : x.length = 0 := Nat.le_zero.mp (hz ▸ Nat.le_max_left _ _)
          have h2 : y.length = 0 := Nat.le_zero.mp (hz ▸ Nat.le_max_right _ _)
          exact heq ((List.length_eq_zero.mp h1).trans (List.length_eq_zero.mp h2).symm)
        · have hne : ¬ (x.length = 0 ∧ y.length = 0) := by
            rintro ⟨h1, h2⟩
            exact hz (by simp [h1, h2])
          simp only [if_neg hz, if_neg hne]
          rw [Nat.cast_max]
  · intro a _
    simp only [calculateScore]
    simp

/-- Witness for C2 at a concrete input: `"/apps/site/title"` has a non-empty
normalized form and self-score 90. -/
theorem c2_score_ladder_witness :
    jsLower (stripQuotes "/apps/site/title".toList) ≠ [] ∧
      calculateScore "/apps/site/title".toList "/apps/site/title".toList = 90 :=
  ⟨by decide, c2_score_ladder.2 "/apps/site/title".toList (by decide)⟩

/-! ### Argmax-fold infrastructure -/
theorem levMatrix_le_max (a b : LC) : (i : Nat) → (j : Nat) →
    levMatrix a b i j ≤ max i j
  | 0, j => by simp [levMatrix]
  | i + 1, 0 => by simp [levMatrix]
  | i + 1, j + 1 => by
    have h1 := levMatrix_le_max a b i j
    simp only [levMatrix]
    by_cases hc : b.getD i ' ' = a.getD j ' '
    · simp only [if_pos hc]
      omega
    · simp only [if_neg hc]
      have := Nat.min_le_left (levMatrix a b i j + 1)
        (min (levMatrix a b (i + 1) j + 1) (levMatrix a b i (j + 1) + 1))
      omega
  termination_by i j => i + j

theorem levDistance_le_max (a b : LC) : levDistance a b ≤ max a.length b.length := by
  unfold levDistance
  by_cases ha : a.length = 0
  · simp [ha]
  · by_cases hb : b.length = 0
    · simp [ha, hb]
    · simp only [if_neg ha, if_neg hb]
      have := levMatrix_le_max a b b.length a.length
      omega

theorem scaled_lev_nonneg (x y : LC) (h : max x.length y.length ≠ 0) :
    0 ≤ (1 - (levDistance x y : ℚ) / ((max x.length y.length : ℕ) : ℚ)) * 60 := by
  have hle : (levDistance x y : ℚ) ≤ ((max x.length y.length : ℕ) : ℚ) := by
    exact_mod_cast levDistance_le_max x y
  have hpos : (0 : ℚ) < ((max x.length y.length : ℕ) : ℚ) := by
    have : 0 < max x.length y.length := Nat.pos_of_ne_zero h
    exact_mod_cast this
  have hdiv : (levDistance x y : ℚ) / ((max x.length y.length : ℕ) : ℚ) ≤ 1 :=
    (div_le_one hpos).mpr hle
  nlinarith

theorem calculateScore_nonneg (a b : LC) : 0 ≤ calculateScore a b := by
  simp only [calculateScore]
  generalize jsBasename (jsLower (stripQuotes a)) = x
  generalize jsBasename (jsLower (stripQuotes b)) = y
  by_cases heq : x = y
  · simp [heq]
  · simp only [if_neg heq]
    by_cases hinc : jsIncludes y x || jsIncludes x y
    · simp [hinc]
    · simp only [hinc, if_false, Bool.false_eq_true]
      by_cases hz : max x.length y.length = 0
      · simp [hz]
      · simp only [if_neg hz]
        exact scaled_lev_nonneg x y hz

theorem componentPairScore_nonneg (s : SourceComponent) (t : TargetComponent)
    (p : LC) : 0 ≤ componentPairScore s t p := by
  have hbase := calculateScore_nonneg s.path p
  simp only [componentPairScore]
  rcases t.properties with _ | tprops
  · by_cases hn : stripQuotes (jsLower (jsBasename s.path)) = jsLower (jsBasename p)
    · simp only [if_pos hn]; linarith
    · simp only [if_neg hn]; linarith
  · have hcast : (0 : ℚ) ≤
        ((min ((s.properties.filter (fun q => q ∈ tprops)).length * 2) 20 : ℕ) : ℚ) := by
      positivity
    by_cases hn : stripQuotes (jsLower (jsBasename s.path)) = jsLower (jsBasename p)
    · simp only [if_pos hn]; linarith
    · simp only [if_neg hn]; linarith

theorem propertyPairScore_nonneg (sp tp : LC) : 0 ≤ propertyPairScore sp tp := by
  simp only [propertyPairScore]
  by_cases h1 : sp = tp
  · simp [h1]
  · simp only [if_neg h1]
    by_cases h2 : jsLower sp = jsLower tp
    · simp [h2]
    · simp only [if_neg h2]
      by_cases h3 : jsIncludes (jsLower sp) (jsLower tp) ||
          jsIncludes (jsLower tp) (jsLower sp)
      · simp [h3]
      · simp only [h3, if_false, Bool.false_eq_true]
        have hz : max sp.length tp.length ≠ 0 := by
          intro hz
          have hsp : sp = [] := List.length_eq_zero.mp (by omega)
          have htp : tp = [] := List.length_eq_zero.mp (by omega)
          exact h1 (hsp.trans htp.symm)
        have hlen : (jsLower sp).length = sp.length := List.length_map _ _
        have hlen2 : (jsLower tp).length = tp.length := List.length_map _ _
        have := scaled_lev_nonneg (jsLower sp) (jsLower tp) (by rw [hlen, hlen2]; exact hz)
        rw [hlen, hlen2] at this
        exact this

theorem bestFold_cons {α : Type} (score : α → ℚ) (x : α) (l : List α)
    (init : Option α × ℚ) :
    bestFold score (x :: l) init =
      bestFold score l (if score x > init.2 then (some x, score x) else init) := rfl

/-- Starting from a champion `c`, the strict-improvement fold returns either
`c` itself (when nothing beats it) or the first strictly better element that
no later element strictly beats. -/
theorem bestFold_champion {α : Type} (score : α → ℚ) :
    ∀ (l : List α) (c : α),
      ∃ x, bestFold score l (some c, score c) = (some x, score x) ∧
        score c ≤ score x ∧ (∀ y ∈ l, score y ≤ score x) ∧
        (x = c ∨ ∃ l₁ l₂, l = l₁ ++ x :: l₂ ∧ score c < score x ∧
          ∀ y ∈ l₁, score y < score x)
  | [], c => ⟨c, rfl, le_refl _, by simp, Or.inl rfl⟩
  | a :: l, c => by
    rw [bestFold_cons]
    by_cases hgt : score a > score c
    · simp only [if_pos hgt]
      obtain ⟨x, hfold, hax, hall, hpos⟩ := bestFold_champion score l a
      refine ⟨x, hfold, le_of_lt (lt_of_lt_of_le hgt hax), ?_, ?_⟩
      · intro y hy
        rcases List.mem_cons.mp hy with h | h
        · exact h ▸ hax
        · exact hall y h
      · rcases hpos with rfl | ⟨l₁, l₂, rfl, hcx, hl₁⟩
        · exact Or.inr ⟨[], l, rfl, hgt, by simp⟩
        · exact Or.inr ⟨a :: l₁, l₂, rfl, lt_of_lt_of_le hgt hax,
            fun y hy => by
              rcases List.mem_cons.mp hy with h | h
              · exact h ▸ lt_of_lt_of_le hcx (le_refl _)
              · exact hl₁ y h⟩
    · simp only [if_neg hgt]
      push_neg at hgt
      obtain ⟨x, hfold, hcx, hall, hpos⟩ := bestFold_champion score l c
      refine ⟨x, hfold, hcx, ?_, ?_⟩
      · intro y hy
        rcases List.mem_cons.mp hy with h | h
        · exact h ▸ le_trans hgt hcx
        · exact hall y h
      · rcases hpos with rfl | ⟨l₁, l₂, rfl, hcx', hl₁⟩
        · exact Or.inl rfl
        · exact Or.inr ⟨a :: l₁, l₂, rfl, hcx',
            fun y hy => by
              rcases List.mem_cons.mp hy with h | h
              · exact h ▸ lt_of_le_of_lt hgt hcx'
              · exact hl₁ y h⟩

/-- From the initial `(null, -1)` accumulator, a fold over a non-empty list of
candidates whose scores all exceed `-1` selects the first maximal-score
candidate; over an empty list it returns `(null, -1)`. -/
theorem bestFold_start {α : Type} (score : α → ℚ) (l : List α)
    (hgt : ∀ y ∈ l, -1 < score y) :
    (l = [] ∧ bestFold score l (none, -1) = (none, -1)) ∨
      ∃ x, bestFold score l (none, -1) = (some x, score x) ∧ FirstArgmax score l x := by
  match l with
  | [] => exact Or.inl ⟨rfl, rfl⟩
  | a :: l =>
    rw [bestFold_cons]
    have ha : score a > -1 := hgt a (List.mem_cons_self a l)
    simp only [if_pos ha]
    obtain ⟨x, hfold, hax, hall, hpos⟩ := bestFold_champion score l a
    refine Or.inr ⟨x, hfold, ?_⟩
    rcases hpos with rfl | ⟨l₁, l₂, rfl, hax', hl₁⟩
    · exact ⟨[], l, rfl, by simp, fun y hy => by
        rcases List.mem_cons.mp hy with h | h
        · exact h ▸ le_refl _
        · exact hall y h⟩
    · refine ⟨a :: l₁, l₂, rfl, ?_, ?_⟩
      · intro y hy
        rcases List.mem_cons.mp hy with h | h
        · exact h ▸ hax'
        · exact hl₁ y h
      · intro y hy
        rcases List.mem_cons.mp hy with h | h
        · exact h ▸ hax
        · exact hall y h

theorem tplFold_eq_bestFold (source : LC) :
    ∀ (ts : List TargetTemplate) (init : Option LC × ℚ),
      ts.foldl
        (fun acc t =>
          if truthy t.targetTemplate then
            let targetPath := t.targetTemplate.getD []
            let score := calculateScore source targetPath
            if score > acc.2 then (some targetPath, score) else acc
          else acc) init =
      bestFold (calculateScore source) (validTplPaths ts) init
  | [], _ => rfl
  | t :: ts, init => by
    by_cases ht : truthy t.targetTemplate
    · simp only [List.foldl_cons, if_pos ht, validTplPaths, List.filterMap_cons, ht,
        if_true, bestFold_cons]
      exact tplFold_eq_bestFold source ts _
    · simp only [List.foldl_cons, if_neg ht, validTplPaths, List.filterMap_cons, ht,
        if_false, Bool.false_eq_true]
      exact tplFold_eq_bestFold source ts init

theorem tplBest_eq (source : LC) (ts : List TargetTemplate) :
    tplBest source ts = bestFold (calculateScore source) (validTplPaths ts) (none, -1) :=
  tplFold_eq_bestFold source ts _

theorem compFold_eq_bestFold (source : SourceComponent) :
    ∀ (ts : List TargetComponent) (init : Option (LC × TargetComponent) × ℚ),
      ts.foldl
        (fun acc t =>
          if truthy t.targetComponent then
            let targetPath := t.targetComponent.getD []
            let score := componentPairScore source t targetPath
            if score > acc.2 then (some (targetPath, t), score) else acc
          else acc) init =
      bestFold (fun pr => componentPairScore source pr.2 pr.1) (validCompTargets ts) init
  | [], _ => rfl
  | t :: ts, init => by
    by_cases ht : truthy t.targetComponent
    · simp only [List.foldl_cons, if_pos ht, validCompTargets, List.filterMap_cons, ht,
        if_true, bestFold_cons]
      exact compFold_eq_bestFold source ts _
    · simp only [List.foldl_cons, if_neg ht, validCompTargets, List.filterMap_cons, ht,
        if_false, Bool.false_eq_true]
      exact compFold_eq_bestFold source ts init

theorem compBest_eq (source : SourceComponent) (ts : List TargetComponent) :
    compBest source ts =
      bestFold (fun pr => componentPairScore source pr.2 pr.1) (validCompTargets ts)
        (none, -1) :=
  compFold_eq_bestFold source ts _

theorem matchTemplateOne_accepted (s : LC) (ts : List TargetTemplate)
    (h : ∃ p ∈ validTplPaths ts, matchThreshold ≤ calculateScore s p) :
    ∃ chosen, FirstArgmax (calculateScore s) (validTplPaths ts) chosen ∧
      (matchTemplateOne s ts).target = chosen ∧
      (matchTemplateOne s ts).score = calculateScore s chosen ∧
      matchThreshold ≤ calculateScore s chosen ∧
      (chosen ≠ noMatchFound →
        (matchTemplateOne s ts).mapping.targetTemplate = chosen) := by
  obtain ⟨p, hp, hsc⟩ := h
  have hgt : ∀ y ∈ validTplPaths ts, (-1 : ℚ) < calculateScore s y := fun y _ =>
    lt_of_lt_of_le (by norm_num) (calculateScore_nonneg s y)
  rcases bestFold_start (calculateScore s) (validTplPaths ts) hgt with ⟨hnil, _⟩ | ⟨x, hfold, hfa⟩
  · rw [hnil] at hp; exact absurd hp (List.not_mem_nil p)
  · obtain ⟨l₁, l₂, hsp, hlt, hle⟩ := hfa
    have hfa : FirstArgmax (calculateScore s) (validTplPaths ts) x := ⟨l₁, l₂, hsp, hlt, hle⟩
    have hmax : matchThreshold ≤ calculateScore s x :=
      le_trans hsc (hle p hp)
    refine ⟨x, hfa, ?_, ?_, hmax, ?_⟩
    · simp only [matchTemplateOne, tplBest_eq, hfold, if_pos hmax, Option.getD_some]
    · simp only [matchTemplateOne, tplBest_eq, hfold]
    · intro hx
      simp only [matchTemplateOne, tplBest_eq, hfold, if_pos hmax, Option.getD_some,
        if_neg hx]

theorem matchTemplateOne_rejected (s : LC) (ts : List TargetTemplate)
    (h : ∀ p ∈ validTplPaths ts, calculateScore s p < matchThreshold) :
    (matchTemplateOne s ts).target = noMatchFound ∧
      (matchTemplateOne s ts).mapping.targetTemplate = [] ∧
      (matchTemplateOne s ts).mapping.propertyMappings = [] := by
  have hgt : ∀ y ∈ validTplPaths ts, (-1 : ℚ) < calculateScore s y := fun y _ =>
    lt_of_lt_of_le (by norm_num) (calculateScore_nonneg s y)
  have hlow : ¬ matchThreshold ≤ (tplBest s ts).2 := by
    rw [tplBest_eq]
    rcases bestFold_start (calculateScore s) (validTplPaths ts) hgt with ⟨_, hres⟩ | ⟨x, hfold, hfa⟩
    · rw [hres]; simp [matchThreshold]; norm_num
    · rw [hfold]
      obtain ⟨l₁, l₂, hsplit, _, _⟩ := hfa
      have hx : x ∈ validTplPaths ts := hsplit ▸ List.mem_append_right l₁ (List.mem_cons_self x l₂)
      exact not_le.mpr (h x hx)
  refine ⟨?_, ?_, rfl⟩
  · simp only [matchTemplateOne, if_neg hlow]
  · simp [matchTemplateOne, if_neg hlow]

theorem matchComponentOne_accepted (s : SourceComponent) (ts : List TargetComponent)
    (h : ∃ pr ∈ validCompTargets ts, matchThreshold ≤ componentPairScore s pr.2 pr.1) :
    ∃ chosen, FirstArgmax (fun pr => componentPairScore s pr.2 pr.1)
        (validCompTargets ts) chosen ∧
      (matchComponentOne s ts).target = chosen.1 ∧
      (matchComponentOne s ts).score = componentPairScore s chosen.2 chosen.1 ∧
      matchThreshold ≤ componentPairScore s chosen.2 chosen.1 ∧
      (chosen.1 ≠ noMatchFound →
        (matchComponentOne s ts).mapping.targetComponent = chosen.1) := by
  obtain ⟨p, hp, hsc⟩ := h
  have hgt : ∀ y ∈ validCompTargets ts, (-1 : ℚ) < componentPairScore s y.2 y.1 := fun y _ =>
    lt_of_lt_of_le (by norm_num) (componentPairScore_nonneg s y.2 y.1)
  rcases bestFold_start _ (validCompTargets ts) hgt with ⟨hnil, _⟩ | ⟨x, hfold, hfa⟩
  · rw [hnil] at hp; exact absurd hp (List.not_mem_nil p)
  · obtain ⟨l₁, l₂, hsp, hlt, hle⟩ := hfa
    have hfa : FirstArgmax (fun pr => componentPairScore s pr.2 pr.1)
        (validCompTargets ts) x := ⟨l₁, l₂, hsp, hlt, hle⟩
    have hmax : matchThreshold ≤ componentPairScore s x.2 x.1 :=
      le_trans hsc (hle p hp)
    refine ⟨x, hfa, ?_, ?_, hmax, ?_⟩
    · simp only [matchComponentOne, compBest_eq, hfold, if_pos hmax, Option.map_some',
        Option.getD_some]
    · simp only [matchComponentOne, compBest_eq, hfold]
    · intro hx
      simp only [matchComponentOne, compBest_eq, hfold, if_pos hmax, Option.map_some',
        Option.getD_some, if_neg hx]

theorem matchComponentOne_rejected (s : SourceComponent) (ts : List TargetComponent)
    (h : ∀ pr ∈ validCompTargets ts, componentPairScore s pr.2 pr.1 < matchThreshold) :
    (matchComponentOne s ts).target = noMatchFound ∧
      (matchComponentOne s ts).mapping.targetComponent = [] ∧
      (matchComponentOne s ts).mapping.propertyMappings = [] := by
  have hgt : ∀ y ∈ validCompTargets ts, (-1 : ℚ) < componentPairScore s y.2 y.1 := fun y _ =>
    lt_of_lt_of_le (by norm_num) (componentPairScore_nonneg s y.2 y.1)
  have hlow : ¬ matchThreshold ≤ (compBest s ts).2 := by
    rw [compBest_eq]
    rcases bestFold_start _ (validCompTargets ts) hgt with ⟨_, hres⟩ | ⟨x, hfold, hfa⟩
    · rw [hres]; simp [matchThreshold]; norm_num
    · rw [hfold]
      obtain ⟨l₁, l₂, hsplit, _, _⟩ := hfa
      have hx : x ∈ validCompTargets ts :=
        hsplit ▸ List.mem_append_right l₁ (List.mem_cons_self x l₂)
      exact not_le.mpr (h x hx)
  refine ⟨?_, ?_, ?_⟩
  · simp only [matchComponentOne, if_neg hlow]
  · simp [matchComponentOne, if_neg hlow]
  · simp only [matchComponentOne, if_neg hlow]

/-- C3: for every source template and source component, matching selects the
first argmax-scoring declared (truthy) target and accepts it only when the
best score reaches the threshold 60; otherwise the row is marked with the
`'no match found'` sentinel and its emitted mapping has an empty target and no
property mappings. -/
theorem c3_argmax_threshold_sentinel :
    (∀ (ss : List LC) (ts : List TargetTemplate) (s : LC), s ∈ ss →
      matchTemplateOne s ts ∈ matchTemplates ss ts ∧
      ((∃ p ∈ validTplPaths ts, matchThreshold ≤ calculateScore s p) →
        ∃ chosen, FirstArgmax (calculateScore s) (validTplPaths ts) chosen ∧
          (matchTemplateOne s ts).target = chosen ∧
          (matchTemplateOne s ts).score = calculateScore s chosen ∧
          matchThreshold ≤ calculateScore s chosen ∧
          (chosen ≠ noMatchFound →
            (matchTemplateOne s ts).mapping.targetTemplate = chosen)) ∧
      ((∀ p ∈ validTplPaths ts, calculateScore s p < matchThreshold) →
        (matchTemplateOne s ts).target = noMatchFound ∧
        (matchTemplateOne s ts).mapping.targetTemplate = [] ∧
        (matchTemplateOne s ts).mapping.propertyMappings = [])) ∧
    (∀ (ss : List SourceComponent) (ts : List TargetComponent) (s : SourceComponent),
      s ∈ ss →
      matchComponentOne s ts ∈ matchComponents ss ts ∧
      ((∃ pr ∈ validCompTargets ts, matchThreshold ≤ componentPairScore s pr.2 pr.1) →
        ∃ chosen, FirstArgmax (fun pr => componentPairScore s pr.2 pr.1)
            (validCompTargets ts) chosen ∧
          (matchComponentOne s ts).target = chosen.1 ∧
          (matchComponentOne s ts).score = componentPairScore s chosen.2 chosen.1 ∧
          matchThreshold ≤ componentPairScore s chosen.2 chosen.1 ∧
          (chosen.1 ≠ noMatchFound →
            (matchComponentOne s ts).mapping.targetComponent = chosen.1)) ∧
      ((∀ pr ∈ validCompTargets ts, componentPairScore s pr.2 pr.1 < matchThreshold) →
        (matchComponentOne s ts).target = noMatchFound ∧
        (matchComponentOne s ts).mapping.targetComponent = [] ∧
        (matchComponentOne s ts).mapping.propertyMappings = [])) := by
  constructor
  · intro ss ts s hs
    exact ⟨List.mem_map_of_mem (fun s => matchTemplateOne s ts) hs,
      matchTemplateOne_accepted s ts, matchTemplateOne_rejected s ts⟩
  · intro ss ts s hs
    exact ⟨List.mem_map_of_mem (fun s => matchComponentOne s ts) hs,
      matchComponentOne_accepted s ts, matchComponentOne_rejected s ts⟩

/-- Witness for C3: with no declared targets, the single source template is
marked `'no match found'` with an empty mapping target. -/
theorem c3_argmax_threshold_sentinel_witness :
    (matchTemplateOne "/apps/legacy/a".toList []).target = noMatchFound ∧
      (matchTemplateOne "/apps/legacy/a".toList []).mapping.targetTemplate = [] := by
  have h := (c3_argmax_threshold_sentinel.1 ["/apps/legacy/a".toList] []
    "/apps/legacy/a".toList (by simp)).2.2
  have h2 := h (by simp [validTplPaths])
  exact ⟨h2.1, h2.2.1⟩

/-- C4 counterexample: for `/apps/a/foo` vs `/apps/b/foo` the full normalized
strings differ but the basenames agree, so the code adds the +20 bonus
(total 110) while the claim's full-string rule adds nothing (total 90). -/
theorem c4_bonus_counterexample :
    componentPairScore srcFooA tgtFooB "/apps/b/foo".toList = 110 ∧
      specC4Score srcFooA tgtFooB "/apps/b/foo".toList = 90 ∧
      (110 : ℚ) ≠ 90 := by
  have hbase : calculateScore srcFooA.path "/apps/b/foo".toList = 90 := by
    have hc : jsBasename (jsLower (stripQuotes srcFooA.path)) =
        jsBasename (jsLower (stripQuotes "/apps/b/foo".toList)) := by decide
    simp only [calculateScore]
    rw [if_pos hc]
  refine ⟨?_, ?_, by norm_num⟩
  · have hname : stripQuotes (jsLower (jsBasename srcFooA.path)) =
        jsLower (jsBasename "/apps/b/foo".toList) := by decide
    simp only [componentPairScore, tgtFooB]
    rw [if_pos hname, hbase]
    have hprops : srcFooA.properties = [] := rfl
    rw [hprops]
    norm_num
  · have hfull : ¬ (jsLower (stripQuotes srcFooA.path) =
        jsLower (stripQuotes "/apps/b/foo".toList)) := by decide
    simp only [specC4Score, tgtFooB]
    rw [if_neg hfull, hbase]
    have hprops : srcFooA.properties = [] := rfl
    rw [hprops]
    norm_num

/-- C4 (amended): the bonuses added to the ladder score before argmax
selection are: +20 when the lower-cased quote-stripped *basenames* agree (not
the full normalized strings), and +2 per source-property entry that also
appears among the target's declared properties, capped at +20 in total. -/
theorem c4_bonus_amended (s : SourceComponent) (t : TargetComponent) (p : LC) :
    componentPairScore s t p =
      calculateScore s.path p +
        (if stripQuotes (jsLower (jsBasename s.path)) = jsLower (jsBasename p)
          then 20 else 0) +
        ((min ((s.properties.filter
            (fun q => q ∈ t.properties.getD [])).length * 2) 20 : ℕ) : ℚ) := by
  simp only [componentPairScore]
  rcases ht : t.properties with _ | tprops
  · simp only [Option.getD_none, List.mem_nil_iff, decide_False, List.filter_false]
    by_cases hn : stripQuotes (jsLower (jsBasename s.path)) = jsLower (jsBasename p)
    · rw [if_pos hn, if_pos hn]; norm_num
    · rw [if_neg hn, if_neg hn]; norm_num
  · simp only [Option.getD_some]
    by_cases hn : stripQuotes (jsLower (jsBasename s.path)) = jsLower (jsBasename p)
    · rw [if_pos hn, if_pos hn]
    · rw [if_neg hn, if_neg hn]; ring_nf

theorem propertyPairScore_eq_spec (sp tp : LC) :
    propertyPairScore sp tp = specPropertyLadder sp tp := by
  simp only [propertyPairScore, specPropertyLadder]
  by_cases h1 : sp = tp
  · simp [h1]
  · simp only [if_neg h1]
    by_cases h2 : jsLower sp = jsLower tp
    · simp [h2]
    · simp only [if_neg h2]
      by_cases h3 : jsIncludes (jsLower sp) (jsLower tp) ||
          jsIncludes (jsLower tp) (jsLower sp)
      · simp [h3]
      · simp only [h3, if_false, Bool.false_eq_true]
        have hdivnn : (0 : ℚ) ≤ (levDistance (jsLower sp) (jsLower tp) : ℚ) /
            ((max sp.length tp.length : ℕ) : ℚ) :=
          div_nonneg (by positivity) (by positivity)
        have hle : (1 - (levDistance (jsLower sp) (jsLower tp) : ℚ) /
            ((max sp.length tp.length : ℕ) : ℚ)) * 60 ≤ 60 := by nlinarith
        exact (min_eq_left hle).symm

theorem jsLookup_jsSetV_self {β : Type} (l : List (LC × β)) (k : LC) (v : β) :
    jsLookup (jsSetV l k v) k = some v := by
  induction l with
  | nil => simp [jsSetV, jsLookup, List.find?]
  | cons p rest ih =>
    by_cases hk : p.1 = k
    · simp [jsSetV, hk, jsLookup, List.find?]
    · simp only [jsSetV]
      rw [if_neg (by exact hk)]
      simp only [jsLookup, List.find?] at ih ⊢
      rw [show (decide (p.1 = k)) = false from decide_eq_false hk]
      exact ih

theorem jsLookup_jsSetV_other {β : Type} (l : List (LC × β)) (k k' : LC) (v : β)
    (h : k' ≠ k) : jsLookup (jsSetV l k v) k' = jsLookup l k' := by
  induction l with
  | nil =>
    simp only [jsSetV, jsLookup, List.find?]
    rw [show (decide (k = k')) = false from decide_eq_false (fun hh => h hh.symm)]
  | cons p rest ih =>
    by_cases hk : p.1 = k
    · have hp : p.1 ≠ k' := by rw [hk]; exact fun hh => h hh.symm
      simp only [jsSetV]
      rw [if_pos hk]
      simp only [jsLookup, List.find?]
      rw [show (decide (k = k')) = false from decide_eq_false (fun hh => h hh.symm),
        show (decide (p.1 = k')) = false from decide_eq_false hp]
    · simp only [jsSetV]
      rw [if_neg hk]
      simp only [jsLookup, List.find?] at ih ⊢
      cases hd : decide (p.1 = k') with
      | true => rfl
      | false => exact ih

theorem matchPropsFold_lookup (tps : List LC) :
    ∀ (sps : List LC) (m : List (LC × LC)) (k : LC),
      jsLookup (sps.foldl (fun mapping sourceProp =>
        let best := bestFold (propertyPairScore sourceProp) tps
          ((none : Option LC), (-1 : ℚ))
        if best.2 ≥ 50 then jsSetV mapping sourceProp (best.1.getD []) else mapping) m) k =
      if k ∈ sps ∧
          (bestFold (propertyPairScore k) tps ((none : Option LC), (-1 : ℚ))).2 ≥ 50 then
        some ((bestFold (propertyPairScore k) tps ((none : Option LC), (-1 : ℚ))).1.getD [])
      else jsLookup m k
  | [], m, k => by simp
  | sp :: sps, m, k => by
    rw [List.foldl_cons, matchPropsFold_lookup tps sps _ k]
    by_cases hk : k = sp
    · subst hk
      by_cases hth :
          (bestFold (propertyPairScore k) tps ((none : Option LC), (-1 : ℚ))).2 ≥ 50
      · simp only [hth, and_true, List.mem_cons, true_or, if_true]
        by_cases hmem : k ∈ sps
        · simp [hmem]
        · simp only [hmem, if_false, if_pos hth]
          exact jsLookup_jsSetV_self m k _
      · simp only [hth, and_false, if_false, if_neg hth]
    · by_cases hmem : k ∈ sps
      · by_cases hth :
            (bestFold (propertyPairScore k) tps ((none : Option LC), (-1 : ℚ))).2 ≥ 50
        · simp [hmem, hth]
        · simp only [hth, and_false, if_false]
          by_cases hsp :
              (bestFold (propertyPairScore sp) tps ((none : Option LC), (-1 : ℚ))).2 ≥ 50
          · simp only [if_pos hsp]
            exact jsLookup_jsSetV_other m sp k _ hk
          · simp only [if_neg hsp]
      · have hnotc : ¬ k ∈ sp :: sps := by
          simp [List.mem_cons, hk, hmem]
        simp only [hmem, false_and, if_false, hnotc]
        by_cases hsp :
            (bestFold (propertyPairScore sp) tps ((none : Option LC), (-1 : ℚ))).2 ≥ 50
        · simp only [if_pos hsp]
          exact jsLookup_jsSetV_other m sp k _ hk
        · simp only [if_neg hsp]

/-- C5: for each source property, `matchProperties` scores it against every
target-declared property with the dedicated ladder (exact 100,
case-insensitive 90, containment 70, else scaled edit distance capped at 60),
accepts the first argmax only at score ≥ 50, produces one renamed-property
entry per accepted source property, and silently omits unmatched source
properties. -/
theorem c5_property_submatching :
    (∀ sp tp : LC, propertyPairScore sp tp = specPropertyLadder sp tp) ∧
    (∀ (sps tps : List LC) (sp : LC), sp ∈ sps →
      (∃ chosen, FirstArgmax (propertyPairScore sp) tps chosen ∧
          50 ≤ propertyPairScore sp chosen ∧
          jsLookup (matchProperties sps tps) sp = some chosen) ∨
        (jsLookup (matchProperties sps tps) sp = none ∧
          ∀ tp ∈ tps, propertyPairScore sp tp < 50)) ∧
    (∀ (sps tps : List LC) (k : LC), k ∉ sps →
      jsLookup (matchProperties sps tps) k = none) := by
  refine ⟨propertyPairScore_eq_spec, ?_, ?_⟩
  · intro sps tps sp hsp
    have hlk := matchPropsFold_lookup tps sps [] sp
    have hmp : matchProperties sps tps = sps.foldl (fun mapping sourceProp =>
        let best := bestFold (propertyPairScore sourceProp) tps
          ((none : Option LC), (-1 : ℚ))
        if best.2 ≥ 50 then jsSetV mapping sourceProp (best.1.getD []) else mapping) [] := rfl
    have hgt : ∀ y ∈ tps, (-1 : ℚ) < propertyPairScore sp y := fun y _ =>
      lt_of_lt_of_le (by norm_num) (propertyPairScore_nonneg sp y)
    rcases bestFold_start (propertyPairScore sp) tps hgt with ⟨hnil, hres⟩ | ⟨x, hfold, hfa⟩
    · right
      constructor
      · rw [hmp, hlk, hres]
        have : ¬ ((-1 : ℚ) ≥ 50) := by norm_num
        simp [this, jsLookup]
      · intro tp htp
        rw [hnil] at htp
        exact absurd htp (List.not_mem_nil tp)
    · by_cases hth : (50 : ℚ) ≤ propertyPairScore sp x
      · left
        refine ⟨x, hfa, hth, ?_⟩
        rw [hmp, hlk, hfold]
        simp only [hsp, true_and]
        rw [if_pos (by exact hth)]
        simp
      · right
        obtain ⟨l₁, l₂, hsplit, hlt, hle⟩ := hfa
        constructor
        · rw [hmp, hlk, hfold]
          have : ¬ ((propertyPairScore sp x) ≥ 50) := hth
          simp only [this, and_false, if_false, jsLookup, List.find?_nil, Option.map_none']
        · intro tp htp
          exact lt_of_le_of_lt (hle tp htp) (lt_of_not_le hth)
  · intro sps tps k hk
    have hlk := matchPropsFold_lookup tps sps [] k
    have hmp : matchProperties sps tps = sps.foldl (fun mapping sourceProp =>
        let best := bestFold (propertyPairScore sourceProp) tps
          ((none : Option LC), (-1 : ℚ))
        if best.2 ≥ 50 then jsSetV mapping sourceProp (best.1.getD []) else mapping) [] := rfl
    rw [hmp, hlk]
    simp only [hk, false_and, if_false, jsLookup, List.find?_nil, Option.map_none']

/-- Witness for C5 at a concrete input: the single source property `title`
against the single declared target property `title`. -/
theorem c5_property_submatching_witness :
    (∃ chosen, FirstArgmax (propertyPairScore "title".toList) ["title".toList] chosen ∧
        50 ≤ propertyPairScore "title".toList chosen ∧
        jsLookup (matchProperties ["title".toList] ["title".toList]) "title".toList =
          some chosen) ∨
      (jsLookup (matchProperties ["title".toList] ["title".toList]) "title".toList = none ∧
        ∀ tp ∈ ["title".toList], propertyPairScore "title".toList tp < 50) :=
  c5_property_submatching.2.1 ["title".toList] ["title".toList] "title".toList
    (List.mem_singleton.mpr rfl)

/-- C8 counterexample: applying the `title → headline` property-mapping pair
*renames* the property: the transformed node carries `headline` with the old
value and no longer carries `title` at all, contradicting the claimed additive
copy that retains the source key. -/
theorem c8_rename_counterexample :
    transformNode c8node c8maps =
      JSObj.cons rtKey (.str "new/comp".toList)
        (.cons "headline".toList (.str "v".toList) .nil) ∧
      objLookup (transformNode c8node c8maps) "title".toList = none ∧
      objLookup c8node "title".toList = some (.str "v".toList) := by
  have h : transformNode c8node c8maps =
      JSObj.cons rtKey (.str "new/comp".toList)
        (.cons "headline".toList (.str "v".toList) .nil) := by
    simp [transformNode, c8node, c8maps, transformEntries, transformKey, transformValue,
      compPropTarget, tplPropTarget, objLookup, jsLookup, propMapGet, objSet, rtKey,
      cqTplKey, List.find?]
  refine ⟨h, ?_, by simp [c8node, objLookup, rtKey]⟩
  rw [h]
  simp [objLookup, rtKey]

theorem objLookup_objOfList (l : List (LC × JSVal)) (k : LC) :
    objLookup (objOfList l) k = (l.find? (fun p => p.1 = k)).map Prod.snd := by
  induction l with
  | nil => rfl
  | cons p rest ih =>
    obtain ⟨k', v'⟩ := p
    simp only [objOfList, objLookup, List.find?]
    by_cases hk : k' = k
    · rw [if_pos hk, show (decide (k' = k)) = true from decide_eq_true hk]
      rfl
    · rw [if_neg hk, show (decide (k' = k)) = false from decide_eq_false hk]
      exact ih

theorem objSet_fresh (acc : List (LC × JSVal)) (k : LC) (v : JSVal)
    (h : ∀ q ∈ acc, q.1 ≠ k) :
    objSet (objOfList acc) k v = objOfList (acc ++ [(k, v)]) := by
  induction acc with
  | nil => rfl
  | cons q rest ih =>
    obtain ⟨k', v'⟩ := q
    have hk : k' ≠ k := h (k', v') (List.mem_cons_self _ _)
    simp only [objOfList, objSet, List.cons_append]
    rw [if_neg hk, ih (fun q hq => h q (List.mem_cons_of_mem _ hq))]
    rfl

theorem find?_map_keyed_none {β : Type} (l : List (LC × JSVal))
    (f : LC × JSVal → LC) (g : LC × JSVal → β) (key : LC)
    (h : ∀ p ∈ l, f p ≠ key) :
    (l.map (fun p => (f p, g p))).find? (fun q => q.1 = key) = none := by
  induction l with
  | nil => rfl
  | cons p rest ih =>
    simp only [List.map_cons, List.find?]
    rw [show (decide (f p = key)) = false from
      decide_eq_false (h p (List.mem_cons_self _ _))]
    exact ih (fun q hq => h q (List.mem_cons_of_mem _ hq))

theorem find?_map_keyed_unique {β : Type} (l : List (LC × JSVal))
    (f : LC × JSVal → LC) (g : LC × JSVal → β) (p : LC × JSVal)
    (hp : p ∈ l) (hnd : (l.map f).Nodup) :
    (l.map (fun q => (f q, g q))).find? (fun q => q.1 = f p) = some (f p, g p) := by
  induction l with
  | nil => exact absurd hp (List.not_mem_nil p)
  | cons a rest ih =>
    simp only [List.map_cons, List.nodup_cons] at hnd
    simp only [List.map_cons, List.find?]
    rcases List.mem_cons.mp hp with rfl | hmem
    · rw [show (decide (f p = f p)) = true from decide_eq_true rfl]
    · by_cases hfa : f a = f p
      · exfalso
        exact hnd.1 (hfa ▸ List.mem_map_of_mem f hmem)
      · rw [show (decide (f a = f p)) = false from decide_eq_false hfa]
        exact ih hmem hnd.2

theorem transformEntries_flat (orig : JSObj) (m : Mappings) :
    ∀ (l acc : List (LC × JSVal)),
      (∀ p ∈ l, isFlat p.2 = true) →
      (∀ p ∈ l, ∀ q ∈ acc, transformKey orig m p.1 ≠ q.1) →
      (l.map (fun p => transformKey orig m p.1)).Nodup →
      transformEntries orig m (objOfList l) (objOfList acc) =
        objOfList (acc ++ l.map (fun p =>
          (transformKey orig m p.1, transformValue m p.1 p.2)))
  | [], acc, _, _, _ => by simp [objOfList, transformEntries]
  | (k, v) :: l, acc, hflat, hfresh, hnd => by
    have hk : ∀ q ∈ acc, q.1 ≠ transformKey orig m k := fun q hq h =>
      hfresh (k, v) (List.mem_cons_self _ _) q hq h.symm
    have hnd' : transformKey orig m k ∉ l.map (fun p => transformKey orig m p.1) ∧
        (l.map (fun p => transformKey orig m p.1)).Nodup := by
      rw [List.map_cons] at hnd
      exact List.nodup_cons.mp hnd
    have hfresh' : ∀ p ∈ l, ∀ q ∈ acc ++ [(transformKey orig m k, transformValue m k v)],
        transformKey orig m p.1 ≠ q.1 := by
      intro p hp q hq
      rcases List.mem_append.mp hq with hq | hq
      · exact hfresh p (List.mem_cons_of_mem _ hp) q hq
      · rcases List.mem_singleton.mp hq with rfl
        intro h
        have h' : transformKey orig m p.1 = transformKey orig m k := h
        exact hnd'.1 (by rw [← h']; exact List.mem_map_of_mem _ hp)
    have hrec := transformEntries_flat orig m l
      (acc ++ [(transformKey orig m k, transformValue m k v)])
      (fun p hp => hflat p (List.mem_cons_of_mem _ hp)) hfresh' hnd'.2
    have hfl := hflat (k, v) (List.mem_cons_self _ _)
    rcases v with s | a | child
    · simp only [objOfList, transformEntries]
      rw [objSet_fresh acc _ _ hk, hrec]
      simp
    · simp only [objOfList, transformEntries]
      rw [objSet_fresh acc _ _ hk, hrec]
      simp
    · simp [isFlat] at hfl

/-- C8 (amended): on a node of scalar/array-valued properties with distinct
keys whose rewritten keys are also distinct, `transformNode` *renames* each
mapped property in place: the output is exactly the entry list with every key
pushed through the applicable property map and every value through the
type-reference rewrite.  In particular the value appears under the target key,
a renamed source key is no longer present (when nothing else maps onto it),
and entries that no mapping names and that are not `sling:resourceType` /
`cq:template` are left completely unchanged. -/
theorem c8_rename_amended (entries : List (LC × JSVal)) (m : Mappings)
    (hflat : ∀ p ∈ entries, isFlat p.2 = true)
    (hnodup : (entries.map (fun p => transformKey (objOfList entries) m p.1)).Nodup) :
    transformNode (objOfList entries) m =
      objOfList (entries.map (fun p =>
        (transformKey (objOfList entries) m p.1, transformValue m p.1 p.2))) ∧
    (∀ p ∈ entries,
      objLookup (transformNode (objOfList entries) m)
          (transformKey (objOfList entries) m p.1) =
        some (transformValue m p.1 p.2)) ∧
    (∀ p ∈ entries,
      (∀ q ∈ entries, transformKey (objOfList entries) m q.1 ≠ p.1) →
      objLookup (transformNode (objOfList entries) m) p.1 = none) ∧
    (∀ (k : LC) (v : JSVal), k ≠ rtKey → k ≠ cqTplKey → transformValue m k v = v) := by
  have hmain : transformNode (objOfList entries) m =
      objOfList (entries.map (fun p =>
        (transformKey (objOfList entries) m p.1, transformValue m p.1 p.2))) := by
    have h := transformEntries_flat (objOfList entries) m entries [] hflat
      (fun p _ q hq => absurd hq (List.not_mem_nil q)) hnodup
    simpa [transformNode, objOfList] using h
  refine ⟨hmain, ?_, ?_, ?_⟩
  · intro p hp
    rw [hmain, objLookup_objOfList]
    rw [find?_map_keyed_unique entries (fun q => transformKey (objOfList entries) m q.1)
      (fun q => transformValue m q.1 q.2) p hp hnodup]
    rfl
  · intro p hp hnone
    rw [hmain, objLookup_objOfList]
    rw [find?_map_keyed_none entries (fun q => transformKey (objOfList entries) m q.1)
      (fun q => transformValue m q.1 q.2) p.1 hnone]
    rfl
  · intro k v hrt htpl
    simp only [transformValue, if_neg hrt, if_neg htpl]

/-- Witness for C8 (amended) at the concrete node and mappings of the
counterexample. -/
theorem c8_rename_amended_witness :
    transformNode (objOfList [(rtKey, JSVal.str "legacy/comp".toList),
        ("title".toList, JSVal.str "v".toList)]) c8maps =
      objOfList ([(rtKey, JSVal.str "legacy/comp".toList),
        ("title".toList, JSVal.str "v".toList)].map (fun p =>
          (transformKey (objOfList [(rtKey, JSVal.str "legacy/comp".toList),
            ("title".toList, JSVal.str "v".toList)]) c8maps p.1,
           transformValue c8maps p.1 p.2))) :=
  (c8_rename_amended [(rtKey, JSVal.str "legacy/comp".toList),
    ("title".toList, JSVal.str "v".toList)] c8maps (by decide) (by decide)).1

/-- C1 (code bug evaluated at the failing input): when the single node's write
is rejected (oracle always `false`, a simulated HTTP 500), the report still
says `processed = 1, created = 1, errors = []` although the failing write was
issued, because `createNode` swallows the failure and returns `false`, which
`processNode` ignores; and when the single node's descriptor fails to parse,
the report says `processed = 0, created = 0` with one error, so
`processed = created + len(errors)` fails on both sides. -/
theorem c1_write_failure_not_recorded :
    (migrateRun c1cfg c1maps (fun _ => false) c1rootWrite =
      ({ processed := 1, created := 1, errors := [] },
       [("http://aem/page".toList, false)])) ∧
    (migrateRun c1cfg c1maps (fun _ => false) c1rootParse =
      ({ processed := 0, created := 0, errors :=
        [("/page/.content.xml".toList, "Unexpected end of XML".toList)] }, [])) ∧
    (0 : Nat) ≠ 0 + 1 := by
  refine ⟨?_, ?_, by omega⟩
  · simp [migrateRun, c1rootWrite, c1cfg, c1maps, traverseDir, traverseEntries,
      processNode, rebasePath, truthy, transformNode, transformEntries]
  · simp [migrateRun, c1rootParse, c1cfg, c1maps, traverseDir, traverseEntries,
      processNode]

/-- C9 counterexample: in the built tree the root's subdirectory child has
path `/a`, which differs from the claimed parent-path + `/` + name = `//a`;
and the inline node nested at depth 2 of the descriptor (`deep`) carries no
path at all. -/
theorem c9_path_counterexample :
    (buildTree c9dir).path = some "/".toList ∧
    (tfToList (buildTree c9dir).children).map (fun c => (c.path, c.name)) =
      [(some "/a".toList, "a".toList), (some "/inline1".toList, "inline1".toList)] ∧
    some "/a".toList ≠ some ("/".toList ++ "/".toList ++ "a".toList) ∧
    ((tfToList (buildTree c9dir).children).get? 1).map
        (fun c => (tfToList c.children).map (fun d => (d.path, d.name))) =
      some [(none, "deep".toList)] := by
  refine ⟨?_, ?_, by decide, ?_⟩ <;>
    simp [buildTree, c9dir, treeTraverse, treeTraverseForest, xmlToNode, xmlForestToNodes,
      setInlinePaths, jcrJoin, jsAssign, tfAppend, tfToList, TNode.path, TNode.name,
      TNode.primaryType, TNode.properties, TNode.children, jsLookup, List.find?]

mutual
theorem xmlToNode_pathless : (x : XmlTree) → AllPathless (xmlToNode x)
  | .mk nm attrs children =>
    AllPathless.mk _ rfl (by
      intro c hc
      simp only [xmlToNode, TNode.children] at hc
      exact xmlForest_pathless children c hc)

theorem xmlForest_pathless : (f : XmlForest) →
    ∀ c ∈ tfToList (xmlForestToNodes f), AllPathless c
  | .nil => by simp [xmlForestToNodes, tfToList]
  | .cons t rest => by
    intro c hc
    simp only [xmlForestToNodes, tfToList, List.mem_cons] at hc
    rcases hc with rfl | hc
    · exact xmlToNode_pathless t
    · exact xmlForest_pathless rest c hc
end

theorem pathless_pathInv : ∀ n, AllPathless n → PathInv n := by
  intro n h
  induction h with
  | mk n hpath hch ih =>
    refine PathInv.mk n ?_ ?_ ?_ ih
    · intro c hc _
      exact hch c hc
    · intro c hc p hp
      rw [hpath] at hp
      exact absurd hp (by simp)
    · intro c hc _
      rcases hch c hc with ⟨c, hcp, _⟩
      exact hcp

theorem setInlinePaths_mem (jp : LC) : (f : TForest) → ∀ c ∈ tfToList (setInlinePaths jp f),
    ∃ d ∈ tfToList f, c = TNode.mk (some (jcrJoin jp d.name)) d.name d.primaryType
      d.properties d.children
  | .nil => by simp [setInlinePaths, tfToList]
  | .cons d rest => by
    intro c hc
    obtain ⟨dp, dnm, dpt, dprops, dcs⟩ := d
    simp only [setInlinePaths, tfToList, List.mem_cons] at hc
    rcases hc with rfl | hc
    · exact ⟨.mk dp dnm dpt dprops dcs, List.mem_cons_self _ _, rfl⟩
    · obtain ⟨d', hd', hc'⟩ := setInlinePaths_mem jp rest c hc
      exact ⟨d', List.mem_cons_of_mem _ hd', hc'⟩

theorem tfToList_append : (f : TForest) → ∀ g,
    tfToList (tfAppend f g) = tfToList f ++ tfToList g
  | .nil, g => by simp [tfAppend, tfToList]
  | .cons t rest, g => by simp [tfAppend, tfToList, tfToList_append rest g]

theorem inline_child_inv (jp : LC) (x : XmlTree) :
    ∀ c ∈ tfToList (setInlinePaths jp ((xmlToNode x).children)),
      c.path = some (jcrJoin jp c.name) ∧ PathInv c := by
  intro c hc
  obtain ⟨d, hd, rfl⟩ := setInlinePaths_mem jp ((xmlToNode x).children) c hc
  have hdp : AllPathless d := by
    obtain ⟨nm, attrs, children⟩ := x
    simp only [xmlToNode, TNode.children] at hd
    exact xmlForest_pathless children d hd
  rcases hdp with ⟨_, hdnone, hdch⟩
  refine ⟨by simp [TNode.path, TNode.name], ?_⟩
  refine PathInv.mk _ ?_ ?_ ?_ ?_
  · intro ch hch _
    exact hdch ch (by simpa [TNode.children] using hch)
  · intro ch hch p _
    rcases hdch ch (by simpa [TNode.children] using hch) with ⟨_, hchp, _⟩
    exact Or.inl hchp
  · intro ch hch h
    simp [TNode.path] at h
  · intro ch hch
    exact pathless_pathInv ch (hdch ch (by simpa [TNode.children] using hch))

mutual
theorem treeTraverse_inv : (d : PkgDir) → ∀ (node : TNode) (jp : LC),
    node.path = some jp → node.children = .nil →
    (treeTraverse d node jp).path = some jp ∧
    (treeTraverse d node jp).name = node.name ∧
    PathInv (treeTraverse d node jp)
  | .mk contentXml subdirs => by
    intro node jp hpath hch
    obtain ⟨np, nnm, npt, nprops, nch⟩ := node
    simp only [TNode.path] at hpath
    simp only [TNode.children] at hch
    subst hpath hch
    have hforest := treeTraverseForest_inv subdirs jp
    rcases contentXml with _ | x
    · simp only [treeTraverse]
      refine ⟨by simp [TNode.path], by simp [TNode.name], ?_⟩
      refine PathInv.mk _ ?_ ?_ ?_ ?_ <;>
        intro c hc <;>
        simp only [TNode.children, tfToList_append, tfAppend, tfToList,
          List.nil_append, List.append_nil] at hc
      · intro hcp
        exact absurd hcp (by rw [(hforest c hc).1]; simp)
      · simp only [TNode.path, Option.some_inj]
        intro p hp
        subst hp
        exact Or.inr (hforest c hc).1
      · simp only [TNode.path]
        intro h
        simp at h
      · exact (hforest c hc).2
    · simp only [treeTraverse]
      refine ⟨by simp [TNode.path], by simp [TNode.name], ?_⟩
      have hinline := inline_child_inv jp x
      refine PathInv.mk _ ?_ ?_ ?_ ?_ <;>
        intro c hc <;>
        simp only [TNode.children, tfToList_append, tfAppend, tfToList,
          List.nil_append, List.append_nil, List.mem_append] at hc
      · intro hcp
        rcases hc with hc | hc
        · exact absurd hcp (by rw [(hforest c hc).1]; simp)
        · exact absurd hcp (by rw [(hinline c hc).1]; simp)
      · simp only [TNode.path, Option.some_inj]
        intro p hp
        subst hp
        rcases hc with hc | hc
        · exact Or.inr (hforest c hc).1
        · exact Or.inr (hinline c hc).1
      · simp only [TNode.path]
        intro h
        simp at h
      · rcases hc with hc | hc
        · exact (hforest c hc).2
        · exact (hinline c hc).2

theorem treeTraverseForest_inv : (f : PkgForest) → ∀ jp,
    ∀ c ∈ tfToList (treeTraverseForest f jp),
      c.path = some (jcrJoin jp c.name) ∧ PathInv c
  | .nil => by simp [treeTraverseForest, tfToList]
  | .cons nm d rest => by
    intro jp c hc
    by_cases hmeta : nm = "META-INF".toList
    · rw [treeTraverseForest, if_pos hmeta] at hc
      exact treeTraverseForest_inv rest jp c hc
    · rw [treeTraverseForest, if_neg hmeta] at hc
      simp only [tfToList, List.mem_cons] at hc
      rcases hc with rfl | hc
      · have h := treeTraverse_inv d
          (.mk (some (jcrJoin jp nm)) nm "nt:folder".toList [] .nil) (jcrJoin jp nm)
          rfl rfl
        refine ⟨?_, h.2.2⟩
        rw [h.1, h.2.1]
        simp [TNode.name]
      · exact treeTraverseForest_inv rest jp c hc
end

/-- C9 (amended): in every tree the builder produces, the root's path is `/`,
and every node's path — when the node carries one — is `jcrJoin` of its
parent's path and its name, where `jcrJoin "/" n = "/" ++ n` (not the claim's
literal parent + `/` + name, which would give `//n` under the root); nodes
from inline descriptor children below the top level carry no path at all, and
neither do their descendants. -/
theorem c9_path_invariant_amended (d : PkgDir) :
    (buildTree d).path = some "/".toList ∧ PathInv (buildTree d) := by
  have h := treeTraverse_inv d
    (.mk (some "/".toList) "jcr_root".toList "nt:folder".toList [] .nil) "/".toList
    rfl rfl
  exact ⟨h.1, h.2.2⟩

mutual
theorem migrateTreeNode_dry (o : LC → Bool) : (n : TNode) →
    ∀ st : MigResults × List LC,
      migrateTreeNode true o n st =
        ({ processed := st.1.processed + nodeCount n,
           created := st.1.created + nodeCount n,
           errors := st.1.errors }, st.2)
  | .mk p _ _ _ cs => by
    intro st
    simp only [migrateTreeNode, if_true]
    rw [migrateTreeForest_dry o cs]
    simp only [nodeCount, Prod.mk.injEq, MigResults.mk.injEq]
    refine ⟨⟨?_, ?_, ?_⟩, ?_⟩ <;> first | omega | rfl | simp

theorem migrateTreeForest_dry (o : LC → Bool) : (f : TForest) →
    ∀ st : MigResults × List LC,
      migrateTreeForest true o f st =
        ({ processed := st.1.processed + forestCount f,
           created := st.1.created + forestCount f,
           errors := st.1.errors }, st.2)
  | .nil => by
    intro st
    obtain ⟨⟨p1, c1, e1⟩, w⟩ := st
    simp [migrateTreeForest, forestCount]
  | .cons c rest => by
    intro st
    simp only [migrateTreeForest, forestCount]
    rw [migrateTreeNode_dry o c, migrateTreeForest_dry o rest]
    simp only [Prod.mk.injEq, MigResults.mk.injEq]
    refine ⟨⟨?_, ?_, ?_⟩, ?_⟩ <;> first | omega | rfl | simp
end

mutual
theorem migrateTreeNode_real_processed (o : LC → Bool) : (n : TNode) →
    ∀ st : MigResults × List LC,
      (migrateTreeNode false o n st).1.processed = st.1.processed + nodeCount n
  | .mk p nm pt props cs => by
    intro st
    simp only [migrateTreeNode, if_false, nodeCount]
    rw [migrateTreeForest_real_processed o cs]
    by_cases hw : o (p.getD [])
    · simp [hw]; omega
    · simp [hw]; omega

theorem migrateTreeForest_real_processed (o : LC → Bool) : (f : TForest) →
    ∀ st : MigResults × List LC,
      (migrateTreeForest false o f st).1.processed = st.1.processed + forestCount f
  | .nil => by
    intro st
    simp [migrateTreeForest, forestCount]
  | .cons c rest => by
    intro st
    simp only [migrateTreeForest, forestCount]
    rw [migrateTreeForest_real_processed o rest, migrateTreeNode_real_processed o c]
    omega
end

/-- C6: a dry run performs the identical traversal and `processed` counting as
a real run against any write oracle, issues no write at all, reports no
errors, and counts every processed node as created; over the 3-node tree
(root plus 2 children) it reports `processed = 2, created = 2, errors = []`
with an empty write log even when every real write would fail. -/
theorem c6_dry_run :
    (∀ (tree : TNode) (oracle : LC → Bool),
      (migrateTree tree true oracle).1.processed =
        (migrateTree tree false oracle).1.processed ∧
      (migrateTree tree true oracle).2 = [] ∧
      (migrateTree tree true oracle).1.errors = [] ∧
      (migrateTree tree true oracle).1.created =
        (migrateTree tree true oracle).1.processed) ∧
    migrateTree c6tree true (fun _ => false) =
      ({ processed := 2, created := 2, errors := [] }, []) := by
  constructor
  · intro tree oracle
    have hdry := migrateTreeForest_dry oracle tree.children
      ({ processed := 0, created := 0, errors := [] }, [])
    have hreal := migrateTreeForest_real_processed oracle tree.children
      ({ processed := 0, created := 0, errors := [] }, [])
    simp only [migrateTree, hdry, hreal]
    simp
  · simp only [migrateTree, c6tree, TNode.children]
    rw [migrateTreeForest_dry]
    simp [nodeCount, forestCount]

/-- C7 counterexample: two reports that differ only in a component's
`UsageCount` produce exports whose re-parses are identical — the parser drops
the count — so `parse(export(report))` cannot reproduce the per-component
count data. -/
theorem c7_count_not_roundtripped :
    parseAnalysisCSV (generateCSVReport
        { templates := [], components := [⟨"comp".toList, 1, ["a".toList]⟩] }) =
      parseAnalysisCSV (generateCSVReport
        { templates := [], components := [⟨"comp".toList, 2, ["a".toList]⟩] }) ∧
    ({ templates := [], components := [⟨"comp".toList, 1, ["a".toList]⟩] } :
        AnalysisReport) ≠
      { templates := [], components := [⟨"comp".toList, 2, ["a".toList]⟩] } := by
  constructor
  · decide
  · decide

theorem idx_not_mem (c : Char) : ∀ (s : LC), c ∉ s → idxFrom s c = none
  | [], _ => rfl
  | a :: l, h => by
    have ha : ¬ a = c := fun hh => h (hh ▸ List.mem_cons_self a l)
    simp only [idxFrom, if_neg ha, idx_not_mem c l (fun hh => h (List.mem_cons_of_mem a hh)),
      Option.map_none']

theorem idx_self (c : Char) : ∀ (t : LC) (r : LC), c ∉ t →
    idxFrom (t ++ c :: r) c = some t.length
  | [], r, _ => by simp [idxFrom]
  | a :: t, r, h => by
    have ha : ¬ a = c := fun hh => h (hh ▸ List.mem_cons_self a t)
    have ih := idx_self c t r (fun hh => h (List.mem_cons_of_mem a hh))
    show idxFrom (a :: (t ++ c :: r)) c = _
    simp only [idxFrom, if_neg ha, ih, Option.map_some', List.length_cons]

theorem dropWhile_eq_self_of_head (p : Char → Bool) : ∀ (s : LC),
    (∀ a, s.head? = some a → p a = false) → s.dropWhile p = s
  | [], _ => rfl
  | a :: l, h => by
    have := h a rfl
    simp [List.dropWhile, this]

theorem jsTrim_eq_self (s : LC)
    (h1 : ∀ a, s.head? = some a → isWsChar a = false)
    (h2 : ∀ a, s.getLast? = some a → isWsChar a = false) : jsTrim s = s := by
  unfold jsTrim
  rw [dropWhile_eq_self_of_head _ s h1]
  rw [dropWhile_eq_self_of_head _ s.reverse (fun a ha => h2 a (by
    rwa [List.head?_reverse] at ha))]
  exact List.reverse_reverse s

theorem jsTrim_cons_ws (c : Char) (s : LC) (hc : isWsChar c = true) :
    jsTrim (c :: s) = jsTrim s := by
  unfold jsTrim
  rw [List.dropWhile_cons]
  simp [hc]

theorem split_no_sep (c : Char) : ∀ (s : LC), c ∉ s → jsSplitChar c s = [s]
  | [], _ => rfl
  | a :: l, h => by
    have ha : ¬ a = c := fun hh => h (hh ▸ List.mem_cons_self a l)
    simp only [jsSplitChar, if_neg ha,
      split_no_sep c l (fun hh => h (List.mem_cons_of_mem a hh))]

theorem split_sep_append (c : Char) : ∀ (row rest : LC), c ∉ row →
    jsSplitChar c (row ++ c :: rest) = row :: jsSplitChar c rest
  | [], rest, _ => by simp [jsSplitChar]
  | a :: row, rest, h => by
    have ha : ¬ a = c := fun hh => h (hh ▸ List.mem_cons_self a row)
    have ih := split_sep_append c row rest (fun hh => h (List.mem_cons_of_mem a hh))
    show jsSplitChar c (a :: (row ++ c :: rest)) = _
    simp only [jsSplitChar, if_neg ha, ih]

theorem split_cons_head (c a : Char) (s : LC) (ha : ¬ a = c) :
    ∀ g gs, jsSplitChar c s = g :: gs → jsSplitChar c (a :: s) = (a :: g) :: gs := by
  intro g gs h
  simp only [jsSplitChar, if_neg ha, h]

theorem split_ne_nil (c : Char) : ∀ (s : LC), jsSplitChar c s ≠ []
  | [] => by simp [jsSplitChar]
  | a :: l => by
    by_cases ha : a = c
    · simp [jsSplitChar, ha]
    · simp only [jsSplitChar, if_neg ha]
      match hl : jsSplitChar c l with
      | [] => simp
      | g :: gs => simp

theorem split_join_trim : ∀ (ps : List LC), ps ≠ [] →
    (∀ p ∈ ps, ';' ∉ p ∧ jsTrim p = p) →
    (jsSplitChar ';' (joinSep "; ".toList ps)).map jsTrim = ps
  | [], h, _ => absurd rfl h
  | [x], _, hw => by
    have hx := hw x (List.mem_singleton.mpr rfl)
    rw [joinSep, split_no_sep ';' x hx.1]
    simp [hx.2]
  | x :: y :: ys, _, hw => by
    have hx := hw x (List.mem_cons_self _ _)
    have hrec := split_join_trim (y :: ys) (by simp)
      (fun p hp => hw p (List.mem_cons_of_mem x hp))
    have hshape : joinSep "; ".toList (x :: y :: ys) =
        x ++ ';' :: ' ' :: joinSep "; ".toList (y :: ys) := by
      show x ++ "; ".toList ++ joinSep "; ".toList (y :: ys) = _
      rw [List.append_assoc]
      rfl
    rw [hshape, split_sep_append ';' x _ hx.1]
    match hsp : jsSplitChar ';' (joinSep "; ".toList (y :: ys)) with
    | [] => exact absurd hsp (split_ne_nil ';' _)
    | g :: gs =>
      rw [split_cons_head ';' ' ' _ (by decide) g gs hsp]
      rw [hsp] at hrec
      simp only [List.map_cons] at hrec ⊢
      rw [jsTrim_cons_ws ' ' g (by decide), hx.2, hrec]

theorem digitChar_mem (d : Nat) : digitChar d ∈ "0123456789".toList := by
  match d with
  | 0 | 1 | 2 | 3 | 4 | 5 | 6 | 7 | 8 | 9 => decide
  | n + 10 => show '0' ∈ _ ; decide

theorem natToCharsAux_mem : ∀ (fuel n : Nat) (acc : LC) (c : Char),
    c ∈ natToCharsAux fuel n acc → c ∈ "0123456789".toList ∨ c ∈ acc
  | 0, _, acc, c, h => Or.inr h
  | fuel + 1, n, acc, c, h => by
    simp only [natToCharsAux] at h
    by_cases hn : n < 10
    · rw [if_pos hn] at h
      rcases List.mem_cons.mp h with rfl | h
      · exact Or.inl (digitChar_mem _)
      · exact Or.inr h
    · rw [if_neg hn] at h
      rcases natToCharsAux_mem fuel (n / 10) _ c h with h | h
      · exact Or.inl h
      · rcases List.mem_cons.mp h with rfl | h
        · exact Or.inl (digitChar_mem _)
        · exact Or.inr h

theorem natToChars_mem (n : Nat) (c : Char) (h : c ∈ natToChars n) :
    c ∈ "0123456789".toList := by
  rcases natToCharsAux_mem (n + 1) n [] c h with h | h
  · exact h
  · exact absurd h (List.not_mem_nil c)

theorem natToChars_no_special (n : Nat) :
    '"' ∉ natToChars n ∧ ',' ∉ natToChars n ∧ '\n' ∉ natToChars n ∧
      ';' ∉ natToChars n := by
  refine ⟨?_, ?_, ?_, ?_⟩ <;> · intro h
                                have := natToChars_mem n _ h
                                simp at this

theorem bareToken_run : ∀ (tok : LC) (rest : LC),
    (∀ c ∈ tok, (c = '"' || c = ',' || isWsChar c) = false) → tok ≠ [] →
    bareTokenAt (tok ++ ',' :: rest) = true
  | [], _, _, hne => absurd rfl hne
  | a :: tok, rest, h, _ => by
    have ha := h a (List.mem_cons_self a tok)
    show bareTokenAt (a :: (tok ++ ',' :: rest)) = true
    simp only [bareTokenAt, ha, if_false, Bool.false_eq_true]
    rcases tok with _ | ⟨b, tok'⟩
    · simp [wsLookahead]
    · have hb := bareToken_run (b :: tok') rest
        (fun c hc => h c (List.mem_cons_of_mem a hc)) (by simp)
      simp only [List.cons_append] at hb
      simp [hb]

theorem hasTokenMatch_of_bare (tok rest : LC)
    (h : ∀ c ∈ tok, (c = '"' || c = ',' || isWsChar c) = false) (hne : tok ≠ []) :
    hasTokenMatch (tok ++ ',' :: rest) = true := by
  match htok : tok ++ ',' :: rest with
  | [] => exact absurd (List.append_eq_nil.mp htok).2 (by simp)
  | a :: s =>
    show (tokenAt (a :: s) || hasTokenMatch s) = true
    have : bareTokenAt (a :: s) = true := htok ▸ bareToken_run tok rest h hne
    simp only [tokenAt, this, Bool.or_true, Bool.true_or]

theorem jsSubstring_nat (s : LC) (a b : Nat) (hab : a ≤ b) (hb : b ≤ s.length) :
    jsSubstring s (a : Int) (b : Int) = (s.take b).drop a := by
  simp only [jsSubstring, Int.toNat_natCast]
  rw [if_neg (by omega : ¬ ((a : Int) < 0)), if_neg (by omega : ¬ ((b : Int) < 0))]
  rw [Nat.min_eq_left (le_trans hab hb), Nat.min_eq_left hb,
    Nat.max_eq_right hab, Nat.min_eq_left hab]

theorem drop_concat_left (pre suf : LC) (n : Nat) (h : n = pre.length) :
    (pre ++ suf).drop n = suf := by
  subst h
  exact List.drop_left pre suf

theorem take_concat_left (pre suf : LC) (n : Nat) (h : n = pre.length) :
    (pre ++ suf).take n = pre := by
  subst h
  exact List.take_left pre suf

theorem quoted_line_parts (cat item rest : LC) (hc : ',' ∉ cat) (hq : '"' ∉ item) :
    jsIndexOf (cat ++ ',' :: '"' :: (item ++ '"' :: rest)) ',' = (cat.length : Int) ∧
    jsSubstring (cat ++ ',' :: '"' :: (item ++ '"' :: rest)) 0 (cat.length : Int) = cat ∧
    jsSubstring (cat ++ ',' :: '"' :: (item ++ '"' :: rest)) ((cat.length : Int) + 1)
      (cat ++ ',' :: '"' :: (item ++ '"' :: rest)).length =
      '"' :: (item ++ '"' :: rest) ∧
    jsIndexOf ('"' :: (item ++ '"' :: rest)) '"' = 0 ∧
    jsIndexOfFrom ('"' :: (item ++ '"' :: rest)) '"' (0 + 1) =
      ((1 + item.length : Nat) : Int) ∧
    jsSubstring ('"' :: (item ++ '"' :: rest)) (0 + 1) ((1 + item.length : Nat) : Int) =
      item ∧
    jsSubstring ('"' :: (item ++ '"' :: rest)) (((1 + item.length : Nat) : Int) + 1)
      ('"' :: (item ++ '"' :: rest)).length = rest := by
  have hlen : (cat ++ ',' :: '"' :: (item ++ '"' :: rest)).length =
      cat.length + item.length + rest.length + 3 := by
    simp [List.length_append]
    omega
  refine ⟨?_, ?_, ?_, ?_, ?_, ?_, ?_⟩
  · simp only [jsIndexOf, idx_self ',' cat _ hc]
  · have h0 : ((0 : Nat) : Int) = (0 : Int) := rfl
    rw [← h0, jsSubstring_nat _ 0 cat.length (by omega) (by omega)]
    simp only [List.drop_zero]
    exact take_concat_left cat _ cat.length rfl
  · have hcast : ((cat.length : Int) + 1) = ((cat.length + 1 : Nat) : Int) := by
      push_cast
      ring
    have hlc : ((cat ++ ',' :: '"' :: (item ++ '"' :: rest)).length : Int) =
        (((cat ++ ',' :: '"' :: (item ++ '"' :: rest)).length : Nat) : Int) := rfl
    rw [hcast, hlc, jsSubstring_nat _ (cat.length + 1) _ (by omega) (by omega)]
    rw [List.take_length]
    have hshape : cat ++ ',' :: '"' :: (item ++ '"' :: rest) =
        (cat ++ [',']) ++ '"' :: (item ++ '"' :: rest) := by simp
    rw [hshape]
    exact drop_concat_left _ _ _ (by simp)
  · simp [jsIndexOf, idxFrom]
  · have : jsIndexOfFrom ('"' :: (item ++ '"' :: rest)) '"' (0 + 1) =
        jsIndexOfFrom ('"' :: (item ++ '"' :: rest)) '"' 1 := rfl
    rw [this]
    simp only [jsIndexOfFrom]
    rw [if_neg (by omega : ¬ ((1 : Int) < 0))]
    have hdrop : ('"' :: (item ++ '"' :: rest)).drop (1 : Int).toNat =
        item ++ '"' :: rest := rfl
    rw [hdrop, idx_self '"' item rest hq]
    simp
    try omega
  · have h1 : ((0 : Int) + 1) = ((1 : Nat) : Int) := rfl
    rw [h1, jsSubstring_nat _ 1 (1 + item.length) (by omega) (by simp; try omega)]
    have hshape : '"' :: (item ++ '"' :: rest) = ('"' :: item) ++ '"' :: rest := by simp
    rw [hshape, take_concat_left ('"' :: item) _ (1 + item.length) (by simp; try omega)]
    rfl
  · have hcast : (((1 + item.length : Nat) : Int) + 1) =
        ((1 + item.length + 1 : Nat) : Int) := by
      push_cast
      ring
    have hlc : (('"' :: (item ++ '"' :: rest)).length : Int) =
        ((('"' :: (item ++ '"' :: rest)).length : Nat) : Int) := rfl
    rw [hcast, hlc, jsSubstring_nat _ (1 + item.length + 1) _ (by simp; try omega)
      (by simp; try omega)]
    rw [List.take_length]
    have hshape : '"' :: (item ++ '"' :: rest) = (('"' :: item) ++ ['"']) ++ rest := by
      simp
    rw [hshape]
    exact drop_concat_left _ _ _ (by simp; try omega)

theorem parse_quoted_row (cat item rest : LC) (acc : List LC × List SourceComponent)
    (hcat_tok : ∀ c ∈ cat, (c = '"' || c = ',' || isWsChar c) = false)
    (hcat_ne : cat ≠ []) (hq : '"' ∉ item)
    (hz : ∀ z, rest.getLast? = some z → isWsChar z = false) (hrne : rest ≠ []) :
    parseAnalysisLine (cat ++ ',' :: '"' :: (item ++ '"' :: rest)) acc =
      (if cat = "Template".toList then (acc.1 ++ [item], acc.2)
       else if cat = "Component".toList then
         (acc.1, acc.2 ++ [⟨item, compProps rest⟩])
       else acc) := by
  obtain ⟨q1, q2, q3, q4, q5, q6, q7⟩ := quoted_line_parts cat item rest
    (fun hm => by simpa using hcat_tok ',' hm) hq
  obtain ⟨a, cat', rfl⟩ : ∃ a cat', cat = a :: cat' := by
    rcases cat with _ | ⟨a, cat'⟩
    · exact absurd rfl hcat_ne
    · exact ⟨a, cat', rfl⟩
  have hrest_last : ∃ z, rest.getLast? = some z := by
    rcases rest with _ | ⟨b, rest'⟩
    · exact absurd rfl hrne
    · exact ⟨_, List.getLast?_eq_getLast _ (by simp)⟩
  obtain ⟨z, hzlast⟩ := hrest_last
  have hline_last : ((a :: cat') ++ ',' :: '"' :: (item ++ '"' :: rest)).getLast? =
      some z := by
    have hsh : (a :: cat') ++ ',' :: '"' :: (item ++ '"' :: rest) =
        ((a :: cat') ++ ',' :: '"' :: item ++ ['"']) ++ rest := by simp
    rw [hsh, List.getLast?_append, hzlast]
    rfl
  have htrim : jsTrim ((a :: cat') ++ ',' :: '"' :: (item ++ '"' :: rest)) =
      (a :: cat') ++ ',' :: '"' :: (item ++ '"' :: rest) := by
    refine jsTrim_eq_self _ ?_ ?_
    · intro x hx
      simp only [List.cons_append, List.head?_cons, Option.some_inj] at hx
      subst hx
      have := hcat_tok a (List.mem_cons_self _ _)
      simp only [Bool.or_eq_false_iff] at this
      exact this.2
    · intro x hx
      rw [hline_last] at hx
      rw [Option.some_inj] at hx
      subst hx
      exact hz z hzlast
  have hac_last : ('"' :: (item ++ '"' :: rest)).getLast? = some z := by
    have hsh : '"' :: (item ++ '"' :: rest) = ('"' :: item ++ ['"']) ++ rest := by simp
    rw [hsh, List.getLast?_append, hzlast]
    rfl
  have hac_trim : jsTrim ('"' :: (item ++ '"' :: rest)) =
      '"' :: (item ++ '"' :: rest) := by
    refine jsTrim_eq_self _ ?_ ?_
    · intro x hx
      simp only [List.head?_cons, Option.some_inj] at hx
      subst hx
      decide
    · intro x hx
      rw [hac_last] at hx
      rw [Option.some_inj] at hx
      subst hx
      exact hz z hzlast
  have htok : hasTokenMatch (a :: (cat' ++ ',' :: '"' :: (item ++ '"' :: rest))) =
      true := by
    have h := hasTokenMatch_of_bare (a :: cat') ('"' :: (item ++ '"' :: rest)) hcat_tok
      (by simp)
    simpa using h
  simp only [parseAnalysisLine, htrim]
  rw [if_neg (by simp : ¬ ((a :: cat') ++ ',' :: '"' :: (item ++ '"' :: rest) :
    LC).isEmpty = true)]
  rw [if_neg (by simp [htok])]
  rw [q1]
  rw [if_neg (by omega : ¬ (((a :: cat').length : Int) = -1))]
  rw [q2, q3, hac_trim]
  rw [if_pos (by simp [leadsWith] : leadsWith ['"'] ('"' :: (item ++ '"' :: rest)) = true)]
  rw [q4, q5]
  rw [if_pos (by omega : ((1 + item.length : Nat) : Int) > -1)]
  rw [q6, q7]

theorem join_not_mem (c : Char) (sep : LC) (hc : c ∉ sep) :
    ∀ (ps : List LC), (∀ p ∈ ps, c ∉ p) → c ∉ joinSep sep ps
  | [], _ => by simp [joinSep]
  | [x], h => by
    simpa [joinSep] using h x (List.mem_singleton.mpr rfl)
  | x :: y :: ys, h => by
    have hx := h x (List.mem_cons_self _ _)
    have hrec := join_not_mem c sep hc (y :: ys)
      (fun p hp => h p (List.mem_cons_of_mem x hp))
    show c ∉ x ++ sep ++ joinSep sep (y :: ys)
    simp only [List.mem_append]
    rintro ((hm | hm) | hm)
    · exact hx hm
    · exact hc hm
    · exact hrec hm

theorem parse_template_row (t : LC) (hq : '"' ∉ t)
    (acc : List LC × List SourceComponent) :
    parseAnalysisLine (templateRow t) acc = (acc.1 ++ [t], acc.2) := by
  have hshape : templateRow t =
      "Template".toList ++ ',' :: '"' :: (t ++ '"' :: ",,".toList) := by
    show "Template,".toList ++ '"' :: (t ++ '"' :: ",,".toList) = _
    rw [show "Template,".toList = "Template".toList ++ [','] from by decide]
    simp
  rw [hshape, parse_quoted_row _ _ _ _ (by decide) (by decide) hq
    (by intro z hzz; rw [show (",,".toList : LC).getLast? = some ',' from by decide,
      Option.some_inj] at hzz; subst hzz; decide) (by decide)]
  rw [if_pos rfl]

theorem parse_component_row (c : AnalysisComponent) (hq : '"' ∉ c.resourceType)
    (acc : List LC × List SourceComponent) :
    parseAnalysisLine (componentRow c) acc =
      (acc.1, acc.2 ++ [⟨c.resourceType,
        compProps (',' :: (natToChars c.count ++ ',' :: '"' ::
          (joinSep "; ".toList c.properties ++ ['"'])))⟩]) := by
  have hshape : componentRow c =
      "Component".toList ++ ',' :: '"' :: (c.resourceType ++ '"' ::
        (',' :: (natToChars c.count ++ ',' :: '"' ::
          (joinSep "; ".toList c.properties ++ ['"'])))) := by
    show "Component,".toList ++ '"' :: _ = _
    rw [show "Component,".toList = "Component".toList ++ [','] from by decide]
    simp
  rw [hshape, parse_quoted_row _ _ _ _ (by decide) (by decide) hq
    ?hlast (by simp)]
  · rw [if_neg (by decide), if_pos rfl]
  case hlast =>
    intro z hzz
    have hg : (',' :: (natToChars c.count ++ ',' :: '"' ::
        (joinSep "; ".toList c.properties ++ ['"'])) : LC).getLast? = some '"' := by
      have hsh : (',' :: (natToChars c.count ++ ',' :: '"' ::
          (joinSep "; ".toList c.properties ++ ['"'])) : LC) =
          (',' :: (natToChars c.count ++ ',' :: '"' ::
            joinSep "; ".toList c.properties)) ++ ['"'] := by simp
      rw [hsh, List.getLast?_append]
      rfl
    rw [hg, Option.some_inj] at hzz
    subst hzz
    decide

theorem compProps_eval (digits : LC) (ps : List LC)
    (hps : ps ≠ [])
    (hw : ∀ p ∈ ps, ';' ∉ p ∧ jsTrim p = p) (hqp : ∀ p ∈ ps, '"' ∉ p) :
    compProps (',' :: (digits ++ ',' :: '"' ::
      (joinSep "; ".toList ps ++ ['"']))) = ps := by
  set props := joinSep "; ".toList ps with hprops
  have hqprops : '"' ∉ props := join_not_mem '"' "; ".toList (by decide) ps hqp
  set R : LC := ',' :: (digits ++ ',' :: '"' :: (props ++ ['"'])) with hR
  have hRlen : R.length = digits.length + props.length + 4 := by
    simp [hR, List.length_append]
    omega
  have hX : R = (',' :: (digits ++ ',' :: '"' :: props)) ++ ['"'] := by simp [hR]
  have hXlen : (',' :: (digits ++ ',' :: '"' :: props) : LC).length =
      digits.length + props.length + 3 := by
    simp [List.length_append]
    omega
  have hEnd : jsLastIndexOf R '"' ((R.length : Int) - 1) = ((R.length - 1 : Nat) : Int) := by
    simp only [jsLastIndexOf]
    rw [if_neg (by omega : ¬ ((R.length : Int) - 1 < 0))]
    have hb : ((R.length : Int) - 1).toNat = R.length - 1 := by omega
    rw [hb, Nat.min_self]
    have htake : R.take (R.length - 1 + 1) = R := by
      have : R.length - 1 + 1 = R.length := by rw [hRlen]; omega
      rw [this, List.take_length]
    rw [htake, hX]
    rw [List.reverse_append]
    simp only [List.reverse_cons, List.reverse_nil, List.nil_append, List.singleton_append]
    simp [idxFrom]
  have hStart : jsLastIndexOf R '"' (((R.length - 1 : Nat) : Int) - 1) =
      ((digits.length + 2 : Nat) : Int) := by
    simp only [jsLastIndexOf]
    rw [if_neg (by rw [hRlen]; omega : ¬ (((R.length - 1 : Nat) : Int) - 1 < 0))]
    have hb : (((R.length - 1 : Nat) : Int) - 1).toNat = R.length - 2 := by
      rw [hRlen]; omega
    rw [hb]
    have hmin : min (R.length - 2) (R.length - 1) = R.length - 2 := by omega
    rw [hmin]
    have htake : R.take (R.length - 2 + 1) = ',' :: (digits ++ ',' :: '"' :: props) := by
      rw [hX]
      refine take_concat_left _ _ _ ?_
      simp [List.length_append]
    rw [htake]
    have hsh : (',' :: (digits ++ ',' :: '"' :: props) : LC).reverse =
        props.reverse ++ '"' :: (',' :: (digits.reverse ++ [','])) := by
      simp
    rw [hsh, idx_self '"' props.reverse _ (by simpa using hqprops)]
    simp only [List.length_reverse]
    have : (R.length - 2 : Int) - (props.length : Int) =
        ((digits.length + 2 : Nat) : Int) := by
      rw [hRlen]
      push_cast
      omega
    rw [← this]
    congr 1
    rw [hRlen]
    omega
  simp only [compProps]
  rw [hEnd, hStart]
  rw [if_pos (by omega : ((digits.length + 2 : Nat) : Int) > -1)]
  have hsub : jsSubstring R (((digits.length + 2 : Nat) : Int) + 1)
      ((R.length - 1 : Nat) : Int) = props := by
    have hcast : (((digits.length + 2 : Nat) : Int) + 1) =
        ((digits.length + 3 : Nat) : Int) := by push_cast; ring
    rw [hcast, jsSubstring_nat R (digits.length + 3) (R.length - 1)
      (by rw [hRlen]; omega) (by omega)]
    have htake : R.take (R.length - 1) = ',' :: (digits ++ ',' :: '"' :: props) := by
      rw [hX]
      refine take_concat_left _ _ _ ?_
      simp [List.length_append]
      omega
    rw [htake]
    have hsh : (',' :: (digits ++ ',' :: '"' :: props) : LC) =
        (',' :: (digits ++ [',', '"'])) ++ props := by simp
    rw [hsh]
    refine drop_concat_left _ _ _ ?_
    simp [List.length_append]
  rw [hsub, hprops]
  exact split_join_trim ps hps hw

theorem templateRow_no_newline (t : LC) (h : '\n' ∉ t) : '\n' ∉ templateRow t := by
  intro hm
  simp only [templateRow, List.mem_append, List.mem_cons] at hm
  rcases hm with hm | hm | hm | hm | hm
  · exact absurd hm (by decide)
  · exact absurd hm (by decide)
  · exact h hm
  · exact absurd hm (by decide)
  · exact absurd hm (by decide)

theorem componentRow_no_newline (c : AnalysisComponent) (h1 : '\n' ∉ c.resourceType)
    (h2 : ∀ p ∈ c.properties, '\n' ∉ p) : '\n' ∉ componentRow c := by
  have hn := (natToChars_no_special c.count).2.2.1
  have hj := join_not_mem '\n' "; ".toList (by decide) c.properties h2
  intro hm
  simp only [componentRow, List.mem_append, List.mem_cons] at hm
  rcases hm with hm | hm | hm | hm | hm | hm | hm | hm | hm | hm | hm
  · exact absurd hm (by decide)
  · exact absurd hm (by decide)
  · exact h1 hm
  · exact absurd hm (by decide)
  · exact absurd hm (by decide)
  · exact hn hm
  · exact absurd hm (by decide)
  · exact absurd hm (by decide)
  · exact hj hm
  · exact absurd hm (by decide)
  · exact absurd hm (by decide)

theorem split_rows (c : Char) : ∀ (rows : List LC), (∀ row ∈ rows, c ∉ row) →
    jsSplitChar c ((rows.map (fun row => row ++ [c])).flatten) = rows ++ [[]]
  | [], _ => by simp [jsSplitChar]
  | row :: rows, h => by
    have hrow := h row (List.mem_cons_self _ _)
    have hrec := split_rows c rows (fun r hr => h r (List.mem_cons_of_mem _ hr))
    simp only [List.map_cons, List.flatten_cons]
    rw [List.append_assoc,
      show ([c] ++ (rows.map (fun row => row ++ [c])).flatten : LC) =
        c :: (rows.map (fun row => row ++ [c])).flatten from rfl,
      split_sep_append c row _ hrow, hrec]
    rfl

theorem parseAnalysisLine_nil (acc : List LC × List SourceComponent) :
    parseAnalysisLine [] acc = acc := rfl

theorem foldl_template_rows : ∀ (ts : List LC), (∀ t ∈ ts, '"' ∉ t) →
    ∀ (acc : List LC × List SourceComponent),
    (ts.map templateRow).foldl (fun acc line => parseAnalysisLine line acc) acc =
      (acc.1 ++ ts, acc.2)
  | [], _, acc => by simp
  | t :: ts, h, acc => by
    simp only [List.map_cons, List.foldl_cons]
    rw [parse_template_row t (h t (List.mem_cons_self _ _)) acc,
      foldl_template_rows ts (fun x hx => h x (List.mem_cons_of_mem _ hx)) _]
    simp

theorem foldl_component_rows : ∀ (cs : List AnalysisComponent),
    (∀ c ∈ cs, '"' ∉ c.resourceType ∧ c.properties ≠ [] ∧
      ∀ p ∈ c.properties, ';' ∉ p ∧ '"' ∉ p ∧ jsTrim p = p) →
    ∀ (acc : List LC × List SourceComponent),
    (cs.map componentRow).foldl (fun acc line => parseAnalysisLine line acc) acc =
      (acc.1, acc.2 ++ cs.map (fun c => ⟨c.resourceType, c.properties⟩))
  | [], _, acc => by simp
  | c :: cs, h, acc => by
    obtain ⟨hq, hne, hw⟩ := h c (List.mem_cons_self _ _)
    simp only [List.map_cons, List.foldl_cons]
    rw [parse_component_row c hq acc,
      compProps_eval (natToChars c.count) c.properties hne
        (fun p hp => ⟨(hw p hp).1, (hw p hp).2.2⟩) (fun p hp => (hw p hp).2.1),
      foldl_component_rows cs (fun x hx => h x (List.mem_cons_of_mem _ hx)) _]
    simp

/-- C7 (amended): for well-formed analysis reports — no quote or newline inside
a template identifier or a component resource type; every component has a
non-empty property list whose entries avoid `;`, `"` and newline and carry no
leading/trailing whitespace — re-parsing the CSV export reproduces the template
list and the per-component resource type and property list exactly; the
`UsageCount` column is written but never read back, so the per-component count
is NOT reproduced (see the counterexample). -/
theorem c7_roundtrip_amended (r : AnalysisReport)
    (ht : ∀ t ∈ r.templates, '"' ∉ t ∧ '\n' ∉ t)
    (hc : ∀ c ∈ r.components, '"' ∉ c.resourceType ∧ '\n' ∉ c.resourceType ∧
      c.properties ≠ [] ∧
      ∀ p ∈ c.properties, ';' ∉ p ∧ '"' ∉ p ∧ '\n' ∉ p ∧ jsTrim p = p) :
    parseAnalysisCSV (generateCSVReport r) =
      (r.templates, r.components.map (fun c => ⟨c.resourceType, c.properties⟩)) := by
  have hbody : ((r.templates.map (fun t => templateRow t ++ ['\n'])) ++
      (r.components.map (fun c => componentRow c ++ ['\n']))).flatten =
      (((r.templates.map templateRow ++ r.components.map componentRow).map
        (fun row => row ++ ['\n'])).flatten) := by
    rw [List.map_append, List.map_map, List.map_map]
    rfl
  have hrowsnn : ∀ row ∈ r.templates.map templateRow ++ r.components.map componentRow,
      '\n' ∉ row := by
    intro row hrow
    rcases List.mem_append.mp hrow with hrow | hrow
    · obtain ⟨t, htm, rfl⟩ := List.mem_map.mp hrow
      exact templateRow_no_newline t (ht t htm).2
    · obtain ⟨c, hcm, rfl⟩ := List.mem_map.mp hrow
      exact componentRow_no_newline c (hc c hcm).2.1
        (fun p hp => ((hc c hcm).2.2.2 p hp).2.2.1)
  have hsplit : jsSplitChar '\n' (generateCSVReport r) =
      "Category,Item,UsageCount,Properties".toList ::
        ((r.templates.map templateRow ++ r.components.map componentRow) ++ [[]]) := by
    rw [generateCSVReport, hbody, split_sep_append '\n' _ _ (by decide),
      split_rows '\n' _ hrowsnn]
  rw [parseAnalysisCSV, hsplit]
  simp only [List.drop_succ_cons, List.drop_zero]
  rw [List.foldl_append, List.foldl_append,
    foldl_template_rows r.templates (fun t htm => (ht t htm).1) ([], []),
    foldl_component_rows r.components
      (fun c hcm => ⟨(hc c hcm).1, (hc c hcm).2.2.1,
        fun p hp => ⟨((hc c hcm).2.2.2 p hp).1, ((hc c hcm).2.2.2 p hp).2.1,
          ((hc c hcm).2.2.2 p hp).2.2.2⟩⟩) _]
  simp [parseAnalysisLine_nil]

theorem c7_roundtrip_amended_witness :
    parseAnalysisCSV (generateCSVReport
        { templates := ["/apps/proj/templates/page".toList],
          components := [⟨"proj/components/text".toList, 2,
            ["text".toList, "textIsRich".toList]⟩] }) =
      (["/apps/proj/templates/page".toList],
        [⟨"proj/components/text".toList, ["text".toList, "textIsRich".toList]⟩]) :=
  c7_roundtrip_amended _ (by decide) (by decide)
